import Mathlib

/-!
Shallow embedding of the pathfinding / navigation-graph / tile-effect / NPC
core of the RVCE Campus Runner game (`src/main.py`, `src/game_dynamics.py`),
together with theorems settling the specification claims about it.

Conventions of the embedding:
* Python `(x, y)` integer tuples become `Cell := Int × Int`.
* Python dictionaries with lookup-or-absent become functions into `Option`;
  `defaultdict(list)` becomes a total function defaulting to `[]`.
* Python `heapq` (a binary min-heap of `(priority, cell)` tuples compared
  lexicographically) becomes a list whose pop removes the lexicographically
  least `(priority, cell)` entry, which is exactly the value `heappop` returns.
* Python `while` loops become fuel-indexed recursions returning `Option`;
  `none` means the fuel ran out (the Python loop would simply have kept
  running), so every theorem about a search talks about runs that complete.
* Tile weights (Python floats `1`, `0.5`, `2`, `0.3`, `4`, `inf`) become
  `WithTop ℚ`; the game never does float arithmetic on them (the A* search
  reads no weight at all), so this representation is exact.
* `math.sqrt` distance guards in the NPC update compare a Euclidean distance
  of integer points against the constants `r`, `2*r`, `1.5`; these are
  translated to the exact equivalent integer comparisons on the squared
  distance (the float sqrt is correctly rounded and the compared quantities
  are never close enough for rounding to flip the comparison).
-/

namespace RVCE

abbrev Cell : Type := Int × Int

/-- `TileType` from `game_dynamics.py`. -/
inductive TileType where
  | NORMAL
  | WALL
  | ICE
  | GRASS
  | PORTAL_A
  | PORTAL_B
  | TRAP
  | BOOSTER
  | CONSTRUCTION
  | WATER
  | LOCKED_GATE
  | KEY
deriving DecidableEq, Repr

/-- The `walkable` field of `TILE_PROPERTIES`. -/
def tileWalkable : TileType → Bool
  | .NORMAL => true
  | .WALL => false
  | .ICE => true
  | .GRASS => true
  | .PORTAL_A => true
  | .PORTAL_B => true
  | .TRAP => true
  | .BOOSTER => true
  | .CONSTRUCTION => false
  | .WATER => true
  | .LOCKED_GATE => false
  | .KEY => true

/-- The `weight` field of `TILE_PROPERTIES` (`float('inf')` becomes `⊤`). -/
def tileWeight : TileType → WithTop ℚ
  | .NORMAL => (1 : ℚ)
  | .WALL => ⊤
  | .ICE => ((1 / 2 : ℚ) : WithTop ℚ)
  | .GRASS => (2 : ℚ)
  | .PORTAL_A => (1 : ℚ)
  | .PORTAL_B => (1 : ℚ)
  | .TRAP => (1 : ℚ)
  | .BOOSTER => ((3 / 10 : ℚ) : WithTop ℚ)
  | .CONSTRUCTION => ⊤
  | .WATER => (4 : ℚ)
  | .LOCKED_GATE => ⊤
  | .KEY => (1 : ℚ)

/-- The `time_penalty` parameter of the `TRAP` tile. -/
def trapTimePenalty : Nat := 5

/-- The `slide` parameter of the `ICE` tile. -/
def iceSlide : Nat := 2

/-- A tile layer: `tile_map[y][x]`, a 2D list of `TileType`. -/
abbrev TileRows : Type := List (List TileType)

/-- Row-major lookup `rows[y][x]` (only consulted at in-bounds indices). -/
def tileAt (rows : TileRows) (x y : Int) : TileType :=
  (rows.getD y.toNat []).getD x.toNat TileType.NORMAL

/-- `RVCEGameMap` from `main.py`: the base occupancy grid `grid[y][x]`
(0 = open, 1 = wall) with its fixed dimensions. -/
structure RVCEGameMap where
  width : Nat
  height : Nat
  grid : List (List Nat)

/-- Lookup `grid[y][x]` (only consulted at in-bounds indices). -/
def RVCEGameMap.gridAt (m : RVCEGameMap) (x y : Int) : Nat :=
  (m.grid.getD y.toNat []).getD x.toNat 0

/-- `RVCEGameMap.is_walkable`: in-bounds check, base-grid check, then the
optional tile-layer check with the locked-gate/key special case. -/
def RVCEGameMap.is_walkable (m : RVCEGameMap) (x y : Int)
    (tile_map : Option TileRows) (has_key : Bool) : Bool :=
  if 0 ≤ x ∧ x < (m.width : Int) ∧ 0 ≤ y ∧ y < (m.height : Int) then
    if m.gridAt x y = 1 then false
    else
      match tile_map with
      | none => true
      | some rows =>
        let t := tileAt rows x y
        if tileWalkable t then true
        else if t = TileType.LOCKED_GATE ∧ has_key then true
        else false
  else false

/-- `RVCEGameMap.get_cell_value`: the raw grid value, `1` out of bounds. -/
def RVCEGameMap.get_cell_value (m : RVCEGameMap) (x y : Int) : Nat :=
  if 0 ≤ x ∧ x < (m.width : Int) ∧ 0 ≤ y ∧ y < (m.height : Int) then
    m.gridAt x y
  else 1

/-- `RVCEGraph` from `main.py`: `adj_list` is a `defaultdict(list)` (modelled
as a total function defaulting to `[]`), `weights` a dict keyed by directed
cell pairs (modelled as a function into `Option`). -/
structure RVCEGraph where
  adj_list : Cell → List Cell
  weights : Cell × Cell → Option (WithTop ℚ)

def RVCEGraph.empty : RVCEGraph :=
  { adj_list := fun _ => [], weights := fun _ => none }

/-- `if b not in adj_list[a]: adj_list[a].append(b)` on the adjacency map. -/
def adjInsert (adj : Cell → List Cell) (a b : Cell) : Cell → List Cell :=
  if b ∈ adj a then adj else fun c => if c = a then adj a ++ [b] else adj c

/-- `RVCEGraph.add_edge`: append `v` to `adj_list[u]` if absent, then `u` to
`adj_list[v]` if absent, then store the same weight under `(u, v)` and
`(v, u)`. -/
def RVCEGraph.add_edge (g : RVCEGraph) (u v : Cell) (w : WithTop ℚ) : RVCEGraph :=
  { adj_list := adjInsert (adjInsert g.adj_list u v) v u,
    weights := fun p =>
      if p = (v, u) then some w else if p = (u, v) then some w else g.weights p }

/-- The fixed neighbour-direction order `[(0,1),(1,0),(0,-1),(-1,0)]`. -/
def dirs : List (Int × Int) := [(0, 1), (1, 0), (0, -1), (-1, 0)]

/-- The weight `build_from_rvce_grid` assigns an edge into cell `n`:
the destination tile's weight, or `1` with no tile layer. -/
def buildWeight (tile_map : Option TileRows) (n : Cell) : WithTop ℚ :=
  match tile_map with
  | none => (1 : ℚ)
  | some rows => tileWeight (tileAt rows n.1 n.2)

/-- One neighbour direction inside `build_from_rvce_grid`'s scan of a cell
`c`: bounds-check the neighbour, re-check walkability, and add the edge with
the destination tile's weight. -/
def buildNeighborStep (m : RVCEGameMap) (tile_map : Option TileRows) (c : Cell)
    (g' : RVCEGraph) (d : Int × Int) : RVCEGraph :=
  let n : Cell := (c.1 + d.1, c.2 + d.2)
  if 0 ≤ n.1 ∧ n.1 < (m.width : Int) ∧ 0 ≤ n.2 ∧ n.2 < (m.height : Int) ∧
      m.is_walkable n.1 n.2 tile_map false then
    g'.add_edge c n (buildWeight tile_map n)
  else g'

/-- Processing of one grid cell inside `build_from_rvce_grid`: if the cell is
walkable, add an edge to each in-bounds walkable orthogonal neighbour with the
destination tile's weight. -/
def buildStep (m : RVCEGameMap) (tile_map : Option TileRows)
    (g : RVCEGraph) (c : Cell) : RVCEGraph :=
  if m.is_walkable c.1 c.2 tile_map false then
    dirs.foldl (buildNeighborStep m tile_map c) g
  else g

/-- The row-major cell enumeration `for y in range(height): for x in range(width)`. -/
def rowMajor (width height : Nat) : List Cell :=
  (List.range height).flatMap fun y : Nat =>
    (List.range width).map fun x : Nat => ((x : Int), (y : Int))

/-- `RVCEGraph.build_from_rvce_grid`: clear, then scan all cells in row-major
order adding edges between mutually walkable orthogonal neighbours. -/
def build_from_rvce_grid (m : RVCEGameMap) (tile_map : Option TileRows) : RVCEGraph :=
  (rowMajor m.width m.height).foldl (buildStep m tile_map) RVCEGraph.empty

/-! ### Tile effect handler (`game_dynamics.py`, `TileEffectHandler`) -/

/-- The mutable state bundle of `TileEffectHandler`. The Python
`triggered_traps` set becomes a `Finset Cell`. -/
structure TileEffectHandler where
  portal_a_pos : Option Cell
  portal_b_pos : Option Cell
  booster_active : Bool
  booster_timer : ℚ
  slide_direction : Option (Int × Int)
  slide_remaining : Nat
  has_key : Bool
  triggered_traps : Finset Cell

/-- `TileEffectHandler.__init__`. -/
def TileEffectHandler.init : TileEffectHandler :=
  { portal_a_pos := none
    portal_b_pos := none
    booster_active := false
    booster_timer := 0
    slide_direction := none
    slide_remaining := 0
    has_key := false
    triggered_traps := ∅ }

/-- `TileEffectHandler.set_portals`. -/
def TileEffectHandler.set_portals (h : TileEffectHandler) (pos_a pos_b : Cell) :
    TileEffectHandler :=
  { h with portal_a_pos := some pos_a, portal_b_pos := some pos_b }

/-- The `(new_pos, time_penalty, message)` triple returned by `process_tile`. -/
structure TileEffectOut where
  new_pos : Cell
  time_penalty : Nat
  message : Option String

/-- `TileEffectHandler.process_tile`: the per-tile-kind effect dispatch. The
method mutates the handler and returns the effect triple; here it returns the
pair (new handler, triple). The `game_map` argument of the Python method is
unused by the method body and not modelled. Note there is no `WATER` branch
in the source: water falls through with `message = None`. -/
def TileEffectHandler.process_tile (h : TileEffectHandler) (player_pos : Cell)
    (tile_type : TileType) (direction : Int × Int) :
    TileEffectHandler × TileEffectOut :=
  match tile_type with
  | .ICE =>
    ({ h with slide_direction := some direction, slide_remaining := iceSlide },
     ⟨player_pos, 0, some "ICE!"⟩)
  | .TRAP =>
    if player_pos ∈ h.triggered_traps then (h, ⟨player_pos, 0, none⟩)
    else
      ({ h with triggered_traps := insert player_pos h.triggered_traps },
       ⟨player_pos, trapTimePenalty, some "TRAP! -5s"⟩)
  | .BOOSTER =>
    ({ h with booster_active := true, booster_timer := 3 },
     ⟨player_pos, 0, some "SPEED BOOST!"⟩)
  | .PORTAL_A =>
    match h.portal_b_pos with
    | some b => (h, ⟨b, 0, some "TELEPORT!"⟩)
    | none => (h, ⟨player_pos, 0, none⟩)
  | .PORTAL_B =>
    match h.portal_a_pos with
    | some a => (h, ⟨a, 0, some "TELEPORT!"⟩)
    | none => (h, ⟨player_pos, 0, none⟩)
  | .KEY =>
    ({ h with has_key := true }, ⟨player_pos, 0, some "KEY ACQUIRED!"⟩)
  | .GRASS =>
    (h, ⟨player_pos, 0, some "Grass slows you..."⟩)
  | _ => (h, ⟨player_pos, 0, none⟩)

/-- `TileEffectHandler.process_slide`: one step of ice sliding, stopping at
the first non-walkable cell (`is_walkable` is called with no tile map and no
key). Returns (new handler, new position). -/
def TileEffectHandler.process_slide (h : TileEffectHandler) (player_pos : Cell)
    (game_map : RVCEGameMap) : TileEffectHandler × Cell :=
  if h.slide_remaining > 0 then
    match h.slide_direction with
    | some d =>
      let nx := player_pos.1 + d.1
      let ny := player_pos.2 + d.2
      if game_map.is_walkable nx ny none false then
        ({ h with slide_remaining := h.slide_remaining - 1 }, (nx, ny))
      else
        ({ h with slide_remaining := 0, slide_direction := none }, player_pos)
    | none => (h, player_pos)
  else (h, player_pos)

/-- `TileEffectHandler.update`: booster-timer countdown. -/
def TileEffectHandler.update (h : TileEffectHandler) (dt : ℚ) : TileEffectHandler :=
  if h.booster_active then
    let t := h.booster_timer - dt
    if t ≤ 0 then { h with booster_timer := t, booster_active := false }
    else { h with booster_timer := t }
  else h

/-! ### Map events (`game_dynamics.py`, `MapEvent` and subclasses)

`ConstructionEvent.apply` and `FireDrillEvent.apply` have identical bodies:
record the original tile of each in-bounds position in the `original_tiles`
dict, then overwrite those tiles with `CONSTRUCTION`. `MapEvent.revert`
writes the recorded originals back. The `original_tiles` dict is modelled as
an insertion-ordered association list with Python-dict update semantics. -/

/-- The guard `0 <= x < game_map.width and 0 <= y < game_map.height` used by
the map events. -/
def inBounds (m : RVCEGameMap) (p : Cell) : Prop :=
  0 ≤ p.1 ∧ p.1 < (m.width : Int) ∧ 0 ≤ p.2 ∧ p.2 < (m.height : Int)

instance (m : RVCEGameMap) (p : Cell) : Decidable (inBounds m p) := by
  unfold inBounds; infer_instance

/-- One tile-layer write `tile_map[y][x] = t` (out-of-range indices leave the
rows unchanged, which the in-bounds guard in the events makes unreachable). -/
def setTile (rows : TileRows) (x y : Int) (t : TileType) : TileRows :=
  rows.set y.toNat ((rows.getD y.toNat []).set x.toNat t)

/-- Python-dict assignment on an insertion-ordered association list: overwrite
in place if the key is present, else append. -/
def dictInsert (d : List (Cell × TileType)) (k : Cell) (v : TileType) :
    List (Cell × TileType) :=
  if d.any (fun e => e.1 = k) then
    d.map (fun e => if e.1 = k then (k, v) else e)
  else d ++ [(k, v)]

/-- Dynamic map event state: its position list and the `original_tiles` dict
(the other fields — type, duration, timers — do not affect apply/revert of
the tile layer). -/
structure MapEvent where
  positions : List Cell
  original_tiles : List (Cell × TileType)

/-- `MapEvent.apply` (the `super().apply` part shared by `ConstructionEvent`
and `FireDrillEvent`): record the original tiles of all in-bounds positions. -/
def MapEvent.recordOriginals (e : MapEvent) (m : RVCEGameMap) (rows : TileRows) :
    MapEvent :=
  { e with
    original_tiles :=
      e.positions.foldl
        (fun d p =>
          if inBounds m p then dictInsert d p (tileAt rows p.1 p.2) else d)
        e.original_tiles }

/-- The tile-layer mutation shared by `ConstructionEvent.apply` and
`FireDrillEvent.apply`: set every in-bounds position to `CONSTRUCTION`. -/
def MapEvent.placeConstruction (e : MapEvent) (m : RVCEGameMap) (rows : TileRows) :
    TileRows :=
  e.positions.foldl
    (fun r p =>
      if inBounds m p then setTile r p.1 p.2 TileType.CONSTRUCTION else r)
    rows

/-- `ConstructionEvent.apply` = `FireDrillEvent.apply`: record originals, then
block the positions. Returns (updated event, updated tile layer). -/
def MapEvent.applyConstructionLike (e : MapEvent) (m : RVCEGameMap)
    (rows : TileRows) : MapEvent × TileRows :=
  let e' := e.recordOriginals m rows
  (e', e'.placeConstruction m rows)

/-- `MapEvent.revert`: write every recorded original tile back. -/
def MapEvent.revert (e : MapEvent) (m : RVCEGameMap) (rows : TileRows) : TileRows :=
  e.original_tiles.foldl
    (fun r pt =>
      if inBounds m pt.1 then setTile r pt.1.1 pt.1.2 pt.2 else r)
    rows

/-! ### NPC finite-state machine (`game_dynamics.py`, `NPC.update`) -/

inductive NPCStateK where
  | IDLE
  | PATROL
  | CHASE
  | RETURN
  | INTERACT
deriving DecidableEq, Repr

inductive NPCTypeK where
  | STUDENT
  | SECURITY
  | PROFESSOR
deriving DecidableEq, Repr

/-- The fields of class `NPC` that its `update` method reads or writes
(sprite/dialogue fields are omitted). Positions are grid cells. -/
structure NPC where
  npc_type : NPCTypeK
  pos : Cell
  start_pos : Cell
  current_path : List Cell
  path_index : Nat
  patrol_points : List Cell
  patrol_index : Nat
  state : NPCStateK
  state_timer : ℚ
  detection_range : Int
  chase_speed : ℚ
  direction : Int × Int
  has_interacted : Bool
  move_timer : ℚ
  move_delay : ℚ

/-- Squared Euclidean distance between integer points: `dx*dx + dy*dy`. -/
def distSq (a b : Cell) : Int :=
  (b.1 - a.1) * (b.1 - a.1) + (b.2 - a.2) * (b.2 - a.2)

/-- The guard `distance < r` of `NPC.update` where
`distance = sqrt(distSq)`: exactly `0 < r ∧ distSq < r²` for integer data. -/
def distLt (d2 : Int) (r : Int) : Bool :=
  decide (0 < r ∧ d2 < r * r)

/-- The guard `distance > r * 2`: exactly `2r < 0 ∨ distSq > 4r²`. -/
def distGtTwice (d2 : Int) (r : Int) : Bool :=
  decide (2 * r < 0 ∨ 4 * (r * r) < d2)

/-- The guard `distance < 1.5`: exactly `distSq < 2.25`, i.e. `4·distSq < 9`. -/
def distLtOnePointFive (d2 : Int) : Bool :=
  decide (4 * d2 < 9)

/-- `NPC._patrol_move`. -/
def NPC.patrol_move (npc : NPC) (game_map : RVCEGameMap)
    (find_path : Cell → Cell → List Cell) : NPC :=
  match npc.patrol_points with
  | [] => npc
  | _ =>
    let target0 := npc.patrol_points.getD npc.patrol_index npc.pos
    let npc1 :=
      if npc.pos = target0 then
        { npc with patrol_index := (npc.patrol_index + 1) % npc.patrol_points.length }
      else npc
    let target := npc1.patrol_points.getD npc1.patrol_index npc1.pos
    let npc2 :=
      if npc1.current_path = [] ∨ npc1.current_path.getLast? ≠ some target then
        { npc1 with current_path := find_path npc1.pos target, path_index := 0 }
      else npc1
    if npc2.current_path ≠ [] ∧ npc2.path_index < npc2.current_path.length then
      let next_pos := npc2.current_path.getD npc2.path_index npc2.pos
      if game_map.is_walkable next_pos.1 next_pos.2 none false then
        { npc2 with
          direction := (next_pos.1 - npc2.pos.1, next_pos.2 - npc2.pos.2)
          pos := next_pos
          path_index := npc2.path_index + 1 }
      else npc2
    else npc2

/-- `NPC._chase_move`. -/
def NPC.chase_move (npc : NPC) (player_pos : Cell) (game_map : RVCEGameMap)
    (find_path : Cell → Cell → List Cell) : NPC :=
  let path := find_path npc.pos player_pos
  let npc1 := { npc with current_path := path }
  if path.length > 1 then
    let next_pos := path.getD 1 npc1.pos
    if game_map.is_walkable next_pos.1 next_pos.2 none false then
      { npc1 with
        direction := (next_pos.1 - npc1.pos.1, next_pos.2 - npc1.pos.2)
        pos := next_pos }
    else npc1
  else npc1

/-- `NPC._return_move`. -/
def NPC.return_move (npc : NPC) (game_map : RVCEGameMap)
    (find_path : Cell → Cell → List Cell) : NPC :=
  if npc.pos = npc.start_pos then npc
  else
    let path := find_path npc.pos npc.start_pos
    let npc1 := { npc with current_path := path }
    if path.length > 1 then
      let next_pos := path.getD 1 npc1.pos
      if game_map.is_walkable next_pos.1 next_pos.2 none false then
        { npc1 with
          direction := (next_pos.1 - npc1.pos.1, next_pos.2 - npc1.pos.2)
          pos := next_pos }
      else npc1
    else npc1

/-- `NPC.update`: the finite-state-machine step (the `frame` counter is not
modelled). Distance guards are the exact integer translations of the
float-sqrt comparisons of the source. -/
def NPC.update (npc : NPC) (dt : ℚ) (player_pos : Cell) (game_map : RVCEGameMap)
    (find_path : Cell → Cell → List Cell) : NPC :=
  let npc := { npc with
    state_timer := npc.state_timer + dt
    move_timer := npc.move_timer + dt }
  let d2 := distSq npc.pos player_pos
  match npc.state with
  | .IDLE =>
    if npc.state_timer > 3 then { npc with state := .PATROL, state_timer := 0 }
    else npc
  | .PATROL =>
    if npc.npc_type = NPCTypeK.SECURITY ∧ distLt d2 npc.detection_range then
      { npc with state := .CHASE, state_timer := 0 }
    else
      if npc.move_timer ≥ npc.move_delay then
        { npc.patrol_move game_map find_path with move_timer := 0 }
      else npc
  | .CHASE =>
    if distGtTwice d2 npc.detection_range then
      { npc with state := .RETURN, state_timer := 0 }
    else if distLtOnePointFive d2 then
      { npc with state := .INTERACT, state_timer := 0 }
    else
      if npc.move_timer ≥ npc.move_delay / npc.chase_speed then
        { npc.chase_move player_pos game_map find_path with move_timer := 0 }
      else npc
  | .RETURN =>
    if npc.pos = npc.start_pos then { npc with state := .PATROL, state_timer := 0 }
    else
      if npc.move_timer ≥ npc.move_delay then
        { npc.return_move game_map find_path with move_timer := 0 }
      else npc
  | .INTERACT =>
    if npc.state_timer > 2 then
      { npc with state := .PATROL, state_timer := 0, has_interacted := true }
    else npc

/-! ### Path search (`main.py`, `RVCECampusRunner.find_path_bfs` / `find_path_astar`)

Both searches read `self.nav_graph.adj_list` (passed here as a function
`Cell → List Cell`) and BFS additionally reads `self.tile_map` (passed as
`Option TileRows`). Each returns the path list; `nodes_explored` (stored into
`self.algorithm_stats` by the source) is returned as the second component.
The `while` loops take a fuel argument and return `none` when it runs out. -/

/-- The construction-tile skip guard of `find_path_bfs`:
`self.tile_map and 0 <= ny < len(tile_map) and 0 <= nx < len(tile_map[0])`
followed by the `CONSTRUCTION` test. -/
def constructionSkip (tile_map : Option TileRows) (c : Cell) : Bool :=
  match tile_map with
  | none => false
  | some rows =>
    decide (rows ≠ [] ∧ 0 ≤ c.2 ∧ c.2 < (rows.length : Int) ∧
      0 ≤ c.1 ∧ c.1 < ((rows.headD []).length : Int)) &&
    decide (tileAt rows c.1 c.2 = TileType.CONSTRUCTION)

/-- The path-reconstruction loop
`while current in parent: path.append(current); current = parent[current]`.
Accumulates the visited cells in reverse, so that prepending `start` to the
result reproduces the source's `path[::-1]` after its final
`path.append(start)`. Returns `none` when fuel runs out. -/
def backtrack (parent : Cell → Option Cell) : Nat → Cell → List Cell → Option (List Cell)
  | 0, c, acc => match parent c with
    | some _ => none
    | none => some acc
  | fuel + 1, c, acc => match parent c with
    | some p => backtrack parent fuel p (c :: acc)
    | none => some acc

/-- The loop state of `find_path_bfs`: FIFO queue, visited set (a list with
membership checks), parent map, and the `nodes_explored` counter. -/
structure BFSSt where
  queue : List Cell
  visited : List Cell
  parent : Cell → Option Cell
  explored : Nat

/-- One neighbour of the BFS inner loop: skip if already visited, skip if a
construction tile, otherwise mark visited, record the parent, and enqueue. -/
def bfsVisit (tile_map : Option TileRows) (current : Cell) (s : BFSSt) (n : Cell) :
    BFSSt :=
  if n ∈ s.visited then s
  else if constructionSkip tile_map n then s
  else
    { s with
      visited := n :: s.visited
      parent := fun c => if c = n then some current else s.parent c
      queue := s.queue ++ [n] }

/-- The BFS `while` loop. -/
def bfsLoop (adj : Cell → List Cell) (tile_map : Option TileRows)
    (start goal : Cell) : Nat → BFSSt → Option (List Cell × Nat)
  | 0, _ => none
  | fuel + 1, s =>
    match s.queue with
    | [] => some ([], s.explored)
    | current :: rest =>
      let explored := s.explored + 1
      if current = goal then
        (backtrack s.parent (fuel + 1) current []).map
          (fun acc => (start :: acc, explored))
      else
        bfsLoop adj tile_map start goal fuel
          ((adj current).foldl (bfsVisit tile_map current)
            { s with queue := rest, explored := explored })

/-- `RVCECampusRunner.find_path_bfs`. -/
def find_path_bfs (adj : Cell → List Cell) (tile_map : Option TileRows)
    (start goal : Cell) (fuel : Nat) : Option (List Cell × Nat) :=
  bfsLoop adj tile_map start goal fuel
    { queue := [start], visited := [start], parent := fun _ => none, explored := 0 }

/-- `RVCECampusRunner.heuristic`: Manhattan distance. -/
def heuristic (a b : Cell) : Nat :=
  (a.1 - b.1).natAbs + (a.2 - b.2).natAbs

/-- A heap entry `(priority, cell)`; `heapq` orders entries lexicographically
by priority, then x, then y. -/
abbrev HeapEntry : Type := Nat × Cell

/-- The strict lexicographic order `heapq` uses on `(priority, (x, y))`. -/
def entLt (a b : HeapEntry) : Bool :=
  decide (a.1 < b.1 ∨ (a.1 = b.1 ∧ (a.2.1 < b.2.1 ∨ (a.2.1 = b.2.1 ∧ a.2.2 < b.2.2))))

/-- `heapq.heappop`: remove and return the lexicographically least entry. -/
def popMin (l : List HeapEntry) : Option (HeapEntry × List HeapEntry) :=
  match l with
  | [] => none
  | e :: es =>
    let m := es.foldl (fun a b => if entLt b a then b else a) e
    some (m, l.erase m)

/-- The loop state of `find_path_astar`: the heap, the `came_from`, `g_score`
and `f_score` dicts, and the `nodes_explored` counter. -/
structure ASt where
  heap : List HeapEntry
  came_from : Cell → Option Cell
  g : Cell → Option Nat
  f : Cell → Option Nat
  explored : Nat

/-- One neighbour of the A* relaxation loop:
`tentative = g_score[current] + 1` (unit step cost — the graph's edge weights
are not consulted); update `came_from`/`g_score`/`f_score` and push when the
neighbour is unseen or improved. The `none` branch of the `g_score[current]`
lookup is unreachable (dict entries are never removed; Python would raise). -/
def astarVisit (goal current : Cell) (s : ASt) (n : Cell) : ASt :=
  match s.g current with
  | none => s
  | some gc =>
    let tentative := gc + 1
    let improves :=
      match s.g n with
      | none => true
      | some gn => tentative < gn
    if improves then
      let fn := tentative + heuristic n goal
      { s with
        came_from := fun c => if c = n then some current else s.came_from c
        g := fun c => if c = n then some tentative else s.g c
        f := fun c => if c = n then some fn else s.f c
        heap := s.heap ++ [(fn, n)] }
    else s

/-- The A* `while` loop. -/
def astarLoop (adj : Cell → List Cell) (start goal : Cell) :
    Nat → ASt → Option (List Cell × Nat)
  | 0, _ => none
  | fuel + 1, s =>
    match popMin s.heap with
    | none => some ([], s.explored)
    | some ((_, current), rest) =>
      let explored := s.explored + 1
      if current = goal then
        (backtrack s.came_from (fuel + 1) current []).map
          (fun acc => (start :: acc, explored))
      else
        astarLoop adj start goal fuel
          ((adj current).foldl (astarVisit goal current)
            { s with heap := rest, explored := explored })

/-- `RVCECampusRunner.find_path_astar` (the initial push has priority `0`
while `f_score[start]` is set to the heuristic, exactly as in the source). -/
def find_path_astar (adj : Cell → List Cell) (start goal : Cell) (fuel : Nat) :
    Option (List Cell × Nat) :=
  astarLoop adj start goal fuel
    { heap := [(0, start)]
      came_from := fun _ => none
      g := fun c => if c = start then some 0 else none
      f := fun c => if c = start then some (heuristic start goal) else none
      explored := 0 }

/-! ### Specification-side predicates -/

/-- Walks from `start` in the adjacency `adj`, stepping only to neighbours
that the BFS construction filter does not skip; `ReachF adj tile_map start c n`
holds when some such walk of `n` steps ends at `c`. With `tile_map = none`
the filter is vacuous and this is plain reachability in `adj`. -/
inductive ReachF (adj : Cell → List Cell) (tile_map : Option TileRows) (start : Cell) :
    Cell → Nat → Prop where
  | refl : ReachF adj tile_map start start 0
  | step {c v n} : ReachF adj tile_map start c n → v ∈ adj c →
      constructionSkip tile_map v = false → ReachF adj tile_map start v (n + 1)

/-- Reachability: some walk of some length. -/
def Reaches (adj : Cell → List Cell) (tile_map : Option TileRows) (start c : Cell) :
    Prop :=
  ∃ n, ReachF adj tile_map start c n

/-- A decidability witness for `List.Chain` built by structural recursion, so
that concrete instances evaluate by kernel reduction. -/
instance chainDecidable {α : Type} {R : α → α → Prop} [DecidableRel R] :
    ∀ (a : α) (l : List α), Decidable (List.Chain R a l)
  | _, [] => isTrue List.Chain.nil
  | a, b :: l =>
    have : Decidable (List.Chain R b l) := chainDecidable b l
    decidable_of_iff (R a b ∧ List.Chain R b l) List.chain_cons.symm

/-- The corresponding decidability witness for `List.Chain'`. -/
instance chain'Decidable {α : Type} {R : α → α → Prop} [DecidableRel R] :
    ∀ (l : List α), Decidable (List.Chain' R l)
  | [] => isTrue trivial
  | a :: l => inferInstanceAs (Decidable (List.Chain R a l))

/-- A non-empty cell list is a path of `adj` from `start` to `goal`:
consecutive cells are graph steps. -/
def IsAdjPath (adj : Cell → List Cell) (start goal : Cell) (p : List Cell) : Prop :=
  p.head? = some start ∧ p.getLast? = some goal ∧
    p.Chain' (fun a b => b ∈ adj a)

instance (adj : Cell → List Cell) (start goal : Cell) (p : List Cell) :
    Decidable (IsAdjPath adj start goal p) :=
  inferInstanceAs (Decidable (p.head? = some start ∧ p.getLast? = some goal ∧
    p.Chain' (fun a b => b ∈ adj a)))

/-- The parent-chain depth of a cell: the number of parent links followed to
reach `start`. -/
inductive PDepth (parent : Cell → Option Cell) (start : Cell) : Cell → Nat → Prop where
  | zero : PDepth parent start start 0
  | succ {c p n} : parent c = some p → PDepth parent start p n →
      PDepth parent start c (n + 1)

/-- Orthogonal adjacency of two cells (they differ by one unit step). -/
def orthAdj (a b : Cell) : Prop :=
  (a.1 - b.1).natAbs + (a.2 - b.2).natAbs = 1

instance (a b : Cell) : Decidable (orthAdj a b) :=
  inferInstanceAs (Decidable ((a.1 - b.1).natAbs + (a.2 - b.2).natAbs = 1))

/-- Walkability of a cell under the map, a tile layer, and no key — the
context in which `build_from_rvce_grid` and the claims query it. -/
def WalkOK (m : RVCEGameMap) (tile_map : Option TileRows) (c : Cell) : Prop :=
  m.is_walkable c.1 c.2 tile_map false = true

instance (m : RVCEGameMap) (tile_map : Option TileRows) (c : Cell) :
    Decidable (WalkOK m tile_map c) :=
  inferInstanceAs (Decidable (m.is_walkable c.1 c.2 tile_map false = true))

/-- A non-empty cell list is a grid path from `start` to `goal`: every cell
is walkable (under the tile layer, without a key) and consecutive cells are
orthogonal steps. -/
def IsGridPath (m : RVCEGameMap) (tile_map : Option TileRows)
    (start goal : Cell) (p : List Cell) : Prop :=
  p.head? = some start ∧ p.getLast? = some goal ∧
    (∀ c ∈ p, WalkOK m tile_map c) ∧ p.Chain' orthAdj

instance (m : RVCEGameMap) (tile_map : Option TileRows) (start goal : Cell)
    (p : List Cell) : Decidable (IsGridPath m tile_map start goal p) :=
  inferInstanceAs (Decidable (p.head? = some start ∧ p.getLast? = some goal ∧
    (∀ c ∈ p, WalkOK m tile_map c) ∧ p.Chain' orthAdj))

/-- The accumulated cost of a cell list under the graph's stored directional
edge weights: the sum over consecutive steps of `weights (a, b)`; `none` if
some step has no stored weight. -/
def pathCost (g : RVCEGraph) : List Cell → Option (WithTop ℚ)
  | [] => some 0
  | [_] => some 0
  | a :: b :: rest =>
    match g.weights (a, b), pathCost g (b :: rest) with
    | some w, some r => some (w + r)
    | _, _ => none

/-- One saturation step of filtered reachability: a set together with all
unskipped neighbours of its members. -/
def reachStep (adj : Cell → List Cell) (tile_map : Option TileRows)
    (S : Finset Cell) : Finset Cell :=
  S ∪ S.biUnion fun c =>
    ((adj c).filter fun v => ¬ constructionSkip tile_map v).toFinset

/-- Iterated saturation from `start`, used to compute connected components of
concrete graphs. -/
def reachIter (adj : Cell → List Cell) (tile_map : Option TileRows)
    (start : Cell) : Nat → Finset Cell
  | 0 => {start}
  | n + 1 => reachStep adj tile_map (reachIter adj tile_map start n)

/-! ### Concrete instances used by counterexamples and witnesses -/

/-- A 2×1 campus strip: a `NORMAL` cell at `(0,0)` next to a `GRASS` cell at
`(1,0)`. -/
def mapStrip : RVCEGameMap := { width := 2, height := 1, grid := [[0, 0]] }

def tilesStrip : TileRows := [[TileType.NORMAL, TileType.GRASS]]

def graphStrip : RVCEGraph := build_from_rvce_grid mapStrip (some tilesStrip)

/-- A 3×2 open map with a `WATER` tile at `(1,0)` on the direct route from
`(0,0)` to `(2,0)` and a `NORMAL` detour along the bottom row. -/
def mapWater : RVCEGameMap :=
  { width := 3, height := 2, grid := [[0, 0, 0], [0, 0, 0]] }

def tilesWater : TileRows :=
  [[TileType.NORMAL, TileType.WATER, TileType.NORMAL],
   [TileType.NORMAL, TileType.NORMAL, TileType.NORMAL]]

def graphWater : RVCEGraph := build_from_rvce_grid mapWater (some tilesWater)

/-- The tile layer of `mapWater` after a construction event has blocked the
cell `(1,0)`: a navigation graph built from the pre-event layer (such as
`graphWater`) is stale with respect to it. -/
def tilesStale : TileRows :=
  [[TileType.NORMAL, TileType.CONSTRUCTION, TileType.NORMAL],
   [TileType.NORMAL, TileType.NORMAL, TileType.NORMAL]]

/-- A 5×3 map whose open cells form an 8-cell ring around the wall at
`(1,1)`, plus an isolated open cell at `(4,0)`; the heuristic pull towards
`(4,0)` makes the A* search relax the cell `(2,1)` twice. -/
def mapRing : RVCEGameMap :=
  { width := 5, height := 3, grid := [[0,0,0,1,0],[0,1,0,1,1],[0,0,0,1,1]] }

def graphRing : RVCEGraph := build_from_rvce_grid mapRing none

/-- The 8 ring cells: the connected component of `(0,2)` in `graphRing`. -/
def ringComponent : Finset Cell :=
  reachIter graphRing.adj_list none (0, 2) 8

/-- The same component as an explicit cell set. -/
def ringCells : Finset Cell :=
  {(0, 2), (0, 1), (1, 2), (0, 0), (2, 2), (1, 0), (2, 1), (2, 0)}

/-- A security guard on patrol at the origin (detection range 4, as the
constructor sets for security NPCs). -/
def npcGuard : NPC :=
  { npc_type := NPCTypeK.SECURITY
    pos := (0, 0)
    start_pos := (0, 0)
    current_path := []
    path_index := 0
    patrol_points := [(0, 0), (3, 0)]
    patrol_index := 0
    state := NPCStateK.PATROL
    state_timer := 0
    detection_range := 4
    chase_speed := 3 / 2
    direction := (0, 1)
    has_interacted := false
    move_timer := 0
    move_delay := 3 / 10 }

/-- The same guard mid-chase. -/
def npcGuardChasing : NPC := { npcGuard with state := NPCStateK.CHASE }

/-! ## Theorems -/

/-- C5: out-of-bounds coordinates are reported blocked: for every coordinate
outside `[0, width) × [0, height)`, every tile map and every key flag,
`is_walkable` returns `False` and `get_cell_value` returns the blocked value
`1` (both functions test bounds before touching the grid arrays). -/
theorem oob_queries_safe (m : RVCEGameMap) (x y : Int)
    (tile_map : Option TileRows) (has_key : Bool)
    (h : ¬ (0 ≤ x ∧ x < (m.width : Int) ∧ 0 ≤ y ∧ y < (m.height : Int))) :
    m.is_walkable x y tile_map has_key = false ∧ m.get_cell_value x y = 1 := by
  unfold RVCEGameMap.is_walkable RVCEGameMap.get_cell_value
  rw [if_neg h, if_neg h]
  exact ⟨rfl, rfl⟩

theorem oob_queries_safe_witness :
    ¬ (0 ≤ (-1 : Int) ∧ (-1 : Int) < ((3 : Nat) : Int) ∧ 0 ≤ (0 : Int) ∧
        (0 : Int) < ((2 : Nat) : Int)) ∧
    (RVCEGameMap.mk 3 2 [[0,0,0],[0,0,0]]).is_walkable (-1) 0 none false = false ∧
    (RVCEGameMap.mk 3 2 [[0,0,0],[0,0,0]]).get_cell_value (-1) 0 = 1 :=
  ⟨by decide,
   oob_queries_safe (RVCEGameMap.mk 3 2 [[0,0,0],[0,0,0]]) (-1) 0 none false
     (by decide)⟩

/-- C6: trap idempotence within a session. A fresh handler has no triggered
traps; the first `process_tile` at a trap cell returns the strictly positive
penalty `5` and records the cell; any later `process_tile` at that cell
returns penalty `0` and leaves the set unchanged; every `process_tile` call
only grows the triggered set; and `process_slide`, `update` and `set_portals`
never touch it — only constructing a fresh handler clears it. -/
theorem trap_idempotent :
    TileEffectHandler.init.triggered_traps = ∅ ∧
    (∀ (h : TileEffectHandler) (p : Cell) (d : Int × Int),
      p ∉ h.triggered_traps →
        (h.process_tile p TileType.TRAP d).2.time_penalty = trapTimePenalty ∧
        0 < (h.process_tile p TileType.TRAP d).2.time_penalty ∧
        p ∈ (h.process_tile p TileType.TRAP d).1.triggered_traps) ∧
    (∀ (h : TileEffectHandler) (p : Cell) (d : Int × Int),
      p ∈ h.triggered_traps →
        (h.process_tile p TileType.TRAP d).2.time_penalty = 0 ∧
        (h.process_tile p TileType.TRAP d).1.triggered_traps = h.triggered_traps) ∧
    (∀ (h : TileEffectHandler) (p : Cell) (t : TileType) (d : Int × Int),
      h.triggered_traps ⊆ (h.process_tile p t d).1.triggered_traps) ∧
    (∀ (h : TileEffectHandler) (p : Cell) (m : RVCEGameMap),
      (h.process_slide p m).1.triggered_traps = h.triggered_traps) ∧
    (∀ (h : TileEffectHandler) (dt : ℚ),
      (h.update dt).triggered_traps = h.triggered_traps) ∧
    (∀ (h : TileEffectHandler) (a b : Cell),
      (h.set_portals a b).triggered_traps = h.triggered_traps) := by
  refine ⟨rfl, ?_, ?_, ?_, ?_, ?_, ?_⟩
  · intro h p d hp
    have e : h.process_tile p TileType.TRAP d =
        ({ h with triggered_traps := insert p h.triggered_traps },
         ⟨p, trapTimePenalty, some "TRAP! -5s"⟩) := by
      simp [TileEffectHandler.process_tile, hp]
    rw [e]
    refine ⟨rfl, ?_, Finset.mem_insert_self p _⟩
    show 0 < trapTimePenalty
    decide
  · intro h p d hp
    have e : h.process_tile p TileType.TRAP d = (h, ⟨p, 0, none⟩) := by
      simp [TileEffectHandler.process_tile, hp]
    rw [e]
    exact ⟨rfl, rfl⟩
  · intro h p t d
    cases t <;> simp only [TileEffectHandler.process_tile]
    case TRAP =>
      by_cases hp : p ∈ h.triggered_traps
      · rw [if_pos hp]
      · rw [if_neg hp]
        exact Finset.subset_insert p _
    case PORTAL_A =>
      cases h.portal_b_pos <;> exact fun _ hc => hc
    case PORTAL_B =>
      cases h.portal_a_pos <;> exact fun _ hc => hc
    all_goals exact fun _ hc => hc
  · intro h p m
    unfold TileEffectHandler.process_slide
    by_cases h0 : h.slide_remaining > 0
    · rw [if_pos h0]
      cases h.slide_direction with
      | none => rfl
      | some d =>
        by_cases hw : m.is_walkable (p.1 + d.1) (p.2 + d.2) none false = true
        · simp [hw]
        · simp [hw]
    · rw [if_neg h0]
  · intro h dt
    unfold TileEffectHandler.update
    by_cases hb : h.booster_active = true
    · rw [if_pos hb]
      by_cases ht : h.booster_timer - dt ≤ 0
      · rw [if_pos ht]
      · rw [if_neg ht]
    · rw [if_neg hb]
  · intro h a b
    rfl

/-- C7 (amended): for every `process_tile` call on a Grass tile the position
is unchanged, the penalty is zero and the message is the non-empty
informational string of the source; for a Water tile the position is
unchanged and the penalty is zero but the message is `None` — the source's
dispatch has no `WATER` branch, so no informational message is produced for
water. Neither kind mutates the handler state. -/
theorem grass_water_advisory (h : TileEffectHandler) (p : Cell) (d : Int × Int) :
    ((h.process_tile p TileType.GRASS d).1 = h ∧
     (h.process_tile p TileType.GRASS d).2.new_pos = p ∧
     (h.process_tile p TileType.GRASS d).2.time_penalty = 0 ∧
     ∃ s : String,
       (h.process_tile p TileType.GRASS d).2.message = some s ∧ s ≠ "") ∧
    ((h.process_tile p TileType.WATER d).1 = h ∧
     (h.process_tile p TileType.WATER d).2.new_pos = p ∧
     (h.process_tile p TileType.WATER d).2.time_penalty = 0 ∧
     (h.process_tile p TileType.WATER d).2.message = none) :=
  ⟨⟨rfl, rfl, rfl, "Grass slows you...", rfl, by decide⟩, ⟨rfl, rfl, rfl, rfl⟩⟩

/-- C7 counterexample: on a Water tile the processor returns no message at
all, refuting the claim that the returned message is a non-empty
informational string for Water. -/
theorem water_message_missing :
    ¬ ∃ s : String,
      (TileEffectHandler.init.process_tile (1, 1) TileType.WATER (0, 1)).2.message
        = some s ∧ s ≠ "" := by
  rintro ⟨s, hs, -⟩
  exact Option.noConfusion hs

/-- C8: NPC FSM transitions. A Security NPC in `PATROL` whose Euclidean
distance to the player is within its detection range (expressed exactly on
integer data as `0 < r` and `distSq < r²`) transitions to `CHASE` on the next
update; any NPC in `CHASE` whose distance exceeds twice the detection range
(exactly: `2r < 0` or `distSq > 4r²`) transitions to `RETURN`. -/
theorem npc_fsm_transitions (npc : NPC) (dt : ℚ) (player_pos : Cell)
    (game_map : RVCEGameMap) (find_path : Cell → Cell → List Cell) :
    (npc.npc_type = NPCTypeK.SECURITY → npc.state = NPCStateK.PATROL →
      0 < npc.detection_range →
      distSq npc.pos player_pos < npc.detection_range * npc.detection_range →
      (npc.update dt player_pos game_map find_path).state = NPCStateK.CHASE) ∧
    (npc.state = NPCStateK.CHASE →
      4 * (npc.detection_range * npc.detection_range) < distSq npc.pos player_pos →
      (npc.update dt player_pos game_map find_path).state = NPCStateK.RETURN) := by
  constructor
  · intro htype hstate hr hd
    unfold NPC.update
    rw [hstate]
    simp only
    rw [if_pos ⟨htype, by simp [distLt, hr, hd]⟩]
  · intro hstate hd
    unfold NPC.update
    rw [hstate]
    simp only
    rw [if_pos (by simp [distGtTwice]; right; exact hd)]

theorem npc_fsm_transitions_witness :
    ((npcGuard.update 1 (1, 1) mapStrip (fun _ _ => [])).state = NPCStateK.CHASE ∧
      0 < npcGuard.detection_range ∧
      distSq npcGuard.pos (1, 1) < npcGuard.detection_range * npcGuard.detection_range) ∧
    ((npcGuardChasing.update 1 (10, 10) mapStrip (fun _ _ => [])).state
        = NPCStateK.RETURN ∧
      4 * (npcGuardChasing.detection_range * npcGuardChasing.detection_range)
        < distSq npcGuardChasing.pos (10, 10)) :=
  ⟨⟨(npc_fsm_transitions npcGuard 1 (1, 1) mapStrip (fun _ _ => [])).1
      rfl rfl (by decide) (by decide), by decide, by decide⟩,
   ⟨(npc_fsm_transitions npcGuardChasing 1 (10, 10) mapStrip (fun _ _ => [])).2
      rfl (by decide), by decide⟩⟩

theorem trap_idempotent_witness :
    ((2, 3) : Cell) ∉ TileEffectHandler.init.triggered_traps ∧
    (TileEffectHandler.init.process_tile (2, 3) TileType.TRAP (0, 1)).2.time_penalty
      = trapTimePenalty ∧
    ((2, 3) : Cell) ∈
      (TileEffectHandler.init.process_tile (2, 3) TileType.TRAP (0, 1)).1.triggered_traps :=
  ⟨by decide,
   (trap_idempotent.2.1 TileEffectHandler.init (2, 3) (0, 1) (by decide)).1,
   (trap_idempotent.2.1 TileEffectHandler.init (2, 3) (0, 1) (by decide)).2.2⟩

/-! ### C10: construction-like map events restore the tile layer -/

theorem getD_set_self {α : Type} (l : List α) (i : Nat) (a d : α)
    (h : i < l.length) : (l.set i a).getD i d = a := by
  rw [List.getD_eq_getElem?_getD, List.getElem?_set_self h, Option.getD_some]

theorem getD_set_ne {α : Type} (l : List α) {i j : Nat} (h : i ≠ j) (a d : α) :
    (l.set i a).getD j d = l.getD j d := by
  rw [List.getD_eq_getElem?_getD, List.getElem?_set_ne h, ← List.getD_eq_getElem?_getD]

theorem setTile_setTile (r : TileRows) (x y : Int) (a b : TileType) :
    setTile (setTile r x y a) x y b = setTile r x y b := by
  unfold setTile
  by_cases h : y.toNat < r.length
  · rw [getD_set_self r y.toNat _ _ h]
    simp only [List.set_set]
  · simp only [List.set_eq_of_length_le (le_of_not_lt h)]

theorem setTile_comm (r : TileRows) (x y x' y' : Int) (a b : TileType)
    (hne : x.toNat ≠ x'.toNat ∨ y.toNat ≠ y'.toNat) :
    setTile (setTile r x y a) x' y' b = setTile (setTile r x' y' b) x y a := by
  unfold setTile
  by_cases hyy : y.toNat = y'.toNat
  · have hx : x.toNat ≠ x'.toNat := by
      rcases hne with hx | hy
      · exact hx
      · exact absurd hyy hy
    rw [← hyy]
    by_cases h : y.toNat < r.length
    · rw [getD_set_self r y.toNat _ _ h, getD_set_self r y.toNat _ _ h]
      simp only [List.set_set]
      rw [List.set_comm _ _ _ hx]
    · simp only [List.set_eq_of_length_le (le_of_not_lt h)]
  · rw [getD_set_ne r (Ne.symm hyy), getD_set_ne r hyy,
      List.set_comm _ _ _ hyy]

theorem set_getD_self {α : Type} (l : List α) (i : Nat) (d : α) :
    l.set i (l.getD i d) = l := by
  by_cases h : i < l.length
  · rw [List.getD_eq_getElem?_getD, List.getElem?_eq_getElem h, Option.getD_some]
    apply List.ext_getElem?
    intro j
    rw [List.getElem?_set]
    by_cases e : i = j
    · subst e
      simp [h, List.getElem?_eq_getElem h]
    · simp [e]
  · exact List.set_eq_of_length_le (le_of_not_lt h)

theorem setTile_self (r : TileRows) (x y : Int) :
    setTile r x y (tileAt r x y) = r := by
  unfold setTile tileAt
  rw [set_getD_self, set_getD_self]

/-- Two distinct in-bounds cells have distinct `toNat` coordinate pairs. -/
theorem inBounds_toNat_ne (m : RVCEGameMap) {p q : Cell}
    (hp : inBounds m p) (hq : inBounds m q) (hne : p ≠ q) :
    p.1.toNat ≠ q.1.toNat ∨ p.2.toNat ≠ q.2.toNat := by
  by_contra hcon
  push_neg at hcon
  apply hne
  obtain ⟨hp1, -, hp2, -⟩ := hp
  obtain ⟨hq1, -, hq2, -⟩ := hq
  have e1 : p.1 = q.1 := by omega
  have e2 : p.2 = q.2 := by omega
  exact Prod.ext e1 e2

/-- Goodness of the `original_tiles` dict relative to the pristine tile
layer: every entry is in bounds and stores the pristine tile of its key, and
keys are unrecorded at most once. -/
def GoodDict (m : RVCEGameMap) (rows : TileRows) (d : List (Cell × TileType)) : Prop :=
  (∀ e ∈ d, inBounds m e.1 ∧ e.2 = tileAt rows e.1.1 e.1.2) ∧
    (d.map Prod.fst).Nodup

theorem dictInsert_good {m rows d} (hd : GoodDict m rows d) {p : Cell}
    (hp : inBounds m p) :
    GoodDict m rows (dictInsert d p (tileAt rows p.1 p.2)) := by
  obtain ⟨hval, hnd⟩ := hd
  unfold dictInsert
  by_cases hmem : d.any (fun e => e.1 = p)
  · rw [if_pos hmem]
    constructor
    · intro e he
      obtain ⟨e0, he0, hee⟩ := List.mem_map.mp he
      by_cases hk : e0.1 = p
      · rw [if_pos hk] at hee
        exact hee ▸ ⟨hp, rfl⟩
      · rw [if_neg hk] at hee
        exact hee ▸ hval e0 he0
    · have : (d.map (fun e => if e.1 = p then (p, tileAt rows p.1 p.2) else e)).map
          Prod.fst = d.map Prod.fst := by
        rw [List.map_map]
        apply List.map_congr_left
        intro e _
        by_cases hk : e.1 = p
        · simp [hk]
        · simp [hk]
      rw [this]
      exact hnd
  · rw [if_neg hmem]
    constructor
    · intro e he
      rcases List.mem_append.mp he with h1 | h2
      · exact hval e h1
      · rcases List.mem_singleton.mp h2 with rfl
        exact ⟨hp, rfl⟩
    · rw [List.map_append]
      simp only [List.map_cons, List.map_nil]
      rw [List.nodup_append]
      refine ⟨hnd, List.nodup_singleton _, ?_⟩
      intro k hk
      simp only [List.mem_singleton]
      intro hkp
      subst hkp
      apply hmem
      rw [List.any_eq_true]
      obtain ⟨e, he, hee⟩ := List.mem_map.mp hk
      exact ⟨e, he, by simp [hee]⟩

/-- If every dict entry is in bounds and the key `p` is not among them,
reverting commutes with a prior write at `p`. -/
theorem revert_setTile_comm {m : RVCEGameMap} {d : List (Cell × TileType)}
    (hin : ∀ e ∈ d, inBounds m e.1) {p : Cell} (hp : inBounds m p)
    (hnk : ∀ e ∈ d, e.1 ≠ p) (a : TileType) :
    ∀ r : TileRows,
      (MapEvent.mk [] d).revert m (setTile r p.1 p.2 a) =
        setTile ((MapEvent.mk [] d).revert m r) p.1 p.2 a := by
  induction d with
  | nil => intro r; rfl
  | cons e d ih =>
    intro r
    have hie : inBounds m e.1 := (hin e (List.mem_cons_self e d))
    have hne : e.1 ≠ p := hnk e (List.mem_cons_self e d)
    show (MapEvent.mk [] d).revert m
        (if inBounds m e.1 then setTile (setTile r p.1 p.2 a) e.1.1 e.1.2 e.2
          else setTile r p.1 p.2 a) = _
    rw [if_pos hie]
    rw [setTile_comm r p.1 p.2 e.1.1 e.1.2 a e.2
      (inBounds_toNat_ne m hp hie (Ne.symm hne))]
    rw [ih (fun e' he' => hin e' (List.mem_cons_of_mem e he'))
      (fun e' he' => hnk e' (List.mem_cons_of_mem e he'))]
    show _ = setTile ((MapEvent.mk [] d).revert m
        (if inBounds m e.1 then setTile r e.1.1 e.1.2 e.2 else r)) p.1 p.2 a
    rw [if_pos hie]

/-- If the key `p` is recorded in the dict (all of whose entries are in
bounds), a prior write at `p` is absorbed by the revert. -/
theorem revert_setTile_absorb {m : RVCEGameMap} {d : List (Cell × TileType)}
    (hin : ∀ e ∈ d, inBounds m e.1) {p : Cell} (hp : inBounds m p)
    (hk : ∃ e ∈ d, e.1 = p) (a : TileType) :
    ∀ r : TileRows,
      (MapEvent.mk [] d).revert m (setTile r p.1 p.2 a) =
        (MapEvent.mk [] d).revert m r := by
  induction d with
  | nil => exact absurd hk (by simp)
  | cons e d ih =>
    intro r
    have hie : inBounds m e.1 := (hin e (List.mem_cons_self e d))
    show (MapEvent.mk [] d).revert m
        (if inBounds m e.1 then setTile (setTile r p.1 p.2 a) e.1.1 e.1.2 e.2
          else setTile r p.1 p.2 a) =
      (MapEvent.mk [] d).revert m
        (if inBounds m e.1 then setTile r e.1.1 e.1.2 e.2 else r)
    rw [if_pos hie, if_pos hie]
    by_cases hep : e.1 = p
    · rw [show e.1.1 = p.1 from by rw [hep], show e.1.2 = p.2 from by rw [hep]]
      rw [setTile_setTile]
    · rw [setTile_comm r p.1 p.2 e.1.1 e.1.2 a e.2
        (inBounds_toNat_ne m hp hie (Ne.symm hep))]
      apply ih (fun e' he' => hin e' (List.mem_cons_of_mem e he'))
      obtain ⟨e0, he0, he0p⟩ := hk
      rcases List.mem_cons.mp he0 with rfl | hmem
      · exact absurd he0p hep
      · exact ⟨e0, hmem, he0p⟩

/-- Core induction for C10: starting from a good dict `d` whose revert
restores `rows`, recording and blocking any further position list still
reverts to `rows`. -/
theorem apply_revert_aux (m : RVCEGameMap) (rows : TileRows) :
    ∀ (ps : List Cell) (d : List (Cell × TileType)) (r : TileRows),
      GoodDict m rows d →
      (MapEvent.mk [] d).revert m r = rows →
      (MapEvent.mk []
          (ps.foldl (fun d p =>
            if inBounds m p then dictInsert d p (tileAt rows p.1 p.2) else d) d)).revert
        m
        (ps.foldl (fun r p =>
            if inBounds m p then setTile r p.1 p.2 TileType.CONSTRUCTION else r) r)
      = rows := by
  intro ps
  induction ps with
  | nil => intro d r hd hr; exact hr
  | cons p ps ih =>
    intro d r hd hr
    simp only [List.foldl_cons]
    by_cases hp : inBounds m p
    · rw [if_pos hp, if_pos hp]
      apply ih _ _ (dictInsert_good hd hp)
      unfold dictInsert
      by_cases hmem : d.any (fun e => e.1 = p)
      · rw [if_pos hmem]
        have hdid : d.map (fun e => if e.1 = p then (p, tileAt rows p.1 p.2) else e)
            = d := by
          have hcongr : ∀ e ∈ d,
              (if e.1 = p then (p, tileAt rows p.1 p.2) else e) = id e := by
            intro e he
            by_cases hk : e.1 = p
            · rw [if_pos hk]
              exact Prod.ext (show (p, tileAt rows p.1 p.2).1 = (id e).1 from hk.symm)
                (show (p, tileAt rows p.1 p.2).2 = (id e).2 from by
                  show tileAt rows p.1 p.2 = e.2
                  rw [(hd.1 e he).2, hk])
            · rw [if_neg hk]
              rfl
          rw [List.map_congr_left hcongr, List.map_id]
        rw [hdid]
        rw [revert_setTile_absorb (fun e he => (hd.1 e he).1) hp
          (by
            obtain ⟨e, he, hee⟩ := List.any_eq_true.mp hmem
            exact ⟨e, he, of_decide_eq_true hee⟩) _ r]
        exact hr
      · rw [if_neg hmem]
        have hrev : ∀ r0 : TileRows,
            (MapEvent.mk [] (d ++ [(p, tileAt rows p.1 p.2)])).revert m r0 =
              setTile ((MapEvent.mk [] d).revert m r0) p.1 p.2
                (tileAt rows p.1 p.2) := by
          intro r0
          show List.foldl _ r0 (d ++ [(p, tileAt rows p.1 p.2)]) = _
          rw [List.foldl_append]
          show (if inBounds m p then _ else _) = _
          rw [if_pos hp]
          rfl
        rw [hrev]
        rw [revert_setTile_comm (fun e he => (hd.1 e he).1) hp
          (fun e he hep => by
            apply hmem
            rw [List.any_eq_true]
            exact ⟨e, he, decide_eq_true hep⟩) _ r]
        rw [hr, setTile_setTile, setTile_self]
    · rw [if_neg hp, if_neg hp]
      exact ih d r hd hr

/-- C10: for every `ConstructionEvent` or `FireDrillEvent` (their `apply`
bodies are identical: record originals, then block with `CONSTRUCTION`),
applying the event to a tile layer and then reverting it restores every cell
of the layer exactly — in fact the whole layer is restored, with no
in-bounds assumption needed since out-of-bounds positions are skipped
symmetrically by apply and revert. -/
theorem construction_event_roundtrip (m : RVCEGameMap) (rows : TileRows)
    (positions : List Cell) :
    ((MapEvent.mk positions []).applyConstructionLike m rows).1.revert m
      ((MapEvent.mk positions []).applyConstructionLike m rows).2 = rows := by
  unfold MapEvent.applyConstructionLike MapEvent.recordOriginals
    MapEvent.placeConstruction
  exact apply_revert_aux m rows positions [] rows ⟨by simp, List.nodup_nil⟩ rfl


/-! ### C2: stored edge weights after `build_from_rvce_grid` -/

theorem walkOK_bounds {m : RVCEGameMap} {tm : Option TileRows} {c : Cell}
    (h : WalkOK m tm c) :
    0 ≤ c.1 ∧ c.1 < (m.width : Int) ∧ 0 ≤ c.2 ∧ c.2 < (m.height : Int) := by
  by_contra hb
  unfold WalkOK RVCEGameMap.is_walkable at h
  rw [if_neg hb] at h
  exact Bool.false_ne_true h

theorem orthAdj_ne {u v : Cell} (h : orthAdj u v) : u ≠ v := by
  intro he
  unfold orthAdj at h
  rw [he] at h
  simp at h

theorem add_edge_weights_self (g : RVCEGraph) (u v : Cell) (w : WithTop ℚ)
    (huv : u ≠ v) :
    (g.add_edge v u w).weights (u, v) = some w ∧
    (g.add_edge v u w).weights (v, u) = some w := by
  constructor
  · show (if ((u, v) : Cell × Cell) = (u, v) then some w
        else if ((u, v) : Cell × Cell) = (v, u) then some w else g.weights (u, v)) = some w
    rw [if_pos rfl]
  · show (if ((v, u) : Cell × Cell) = (u, v) then some w
        else if ((v, u) : Cell × Cell) = (v, u) then some w else g.weights (v, u)) = some w
    rw [if_neg (fun he => huv (congrArg Prod.snd he)), if_pos rfl]

theorem add_edge_weights_ne (g : RVCEGraph) (c n : Cell) (w : WithTop ℚ)
    (p : Cell × Cell) (h1 : p ≠ (c, n)) (h2 : p ≠ (n, c)) :
    (g.add_edge c n w).weights p = g.weights p := by
  show (if p = (n, c) then some w else if p = (c, n) then some w else g.weights p) = _
  rw [if_neg h2, if_neg h1]

theorem buildNeighborStep_eq (m : RVCEGameMap) (tm : Option TileRows)
    (c : Cell) (g' : RVCEGraph) (d : Int × Int) :
    buildNeighborStep m tm c g' d =
      if 0 ≤ c.1 + d.1 ∧ c.1 + d.1 < (m.width : Int) ∧ 0 ≤ c.2 + d.2 ∧
          c.2 + d.2 < (m.height : Int) ∧
          m.is_walkable (c.1 + d.1) (c.2 + d.2) tm false then
        g'.add_edge c (c.1 + d.1, c.2 + d.2) (buildWeight tm (c.1 + d.1, c.2 + d.2))
      else g' := rfl

theorem buildNeighborStep_weights_pres (m : RVCEGameMap) (tm : Option TileRows)
    (c : Cell) (g' : RVCEGraph) (d : Int × Int) (p : Cell × Cell)
    (h1 : p ≠ (c, (c.1 + d.1, c.2 + d.2))) (h2 : p ≠ ((c.1 + d.1, c.2 + d.2), c)) :
    (buildNeighborStep m tm c g' d).weights p = g'.weights p := by
  rw [buildNeighborStep_eq]
  split
  · exact add_edge_weights_ne _ _ _ _ _ h1 h2
  · rfl

theorem buildNeighborStep_writes (m : RVCEGameMap) (tm : Option TileRows)
    (v u : Cell) (g' : RVCEGraph) (hu : WalkOK m tm u) (d : Int × Int)
    (hd : ((v.1 + d.1, v.2 + d.2) : Cell) = u) (hvu : u ≠ v) :
    (buildNeighborStep m tm v g' d).weights (u, v) = some (buildWeight tm u) ∧
    (buildNeighborStep m tm v g' d).weights (v, u) = some (buildWeight tm u) := by
  have hb := walkOK_bounds hu
  have e1 : v.1 + d.1 = u.1 := congrArg Prod.fst hd
  have e2 : v.2 + d.2 = u.2 := congrArg Prod.snd hd
  rw [buildNeighborStep_eq, hd, e1, e2]
  rw [if_pos ⟨hb.1, hb.2.1, hb.2.2.1, hb.2.2.2, hu⟩]
  exact add_edge_weights_self g' u v _ hvu

theorem foldl_neighbor_pres (m : RVCEGameMap) (tm : Option TileRows)
    (v u : Cell) (w : WithTop ℚ) (hvu : u ≠ v)
    (ds : List (Int × Int)) (hds : ∀ d ∈ ds, ((v.1 + d.1, v.2 + d.2) : Cell) ≠ u) :
    ∀ g', g'.weights (u, v) = some w → g'.weights (v, u) = some w →
      (ds.foldl (buildNeighborStep m tm v) g').weights (u, v) = some w ∧
      (ds.foldl (buildNeighborStep m tm v) g').weights (v, u) = some w := by
  induction ds with
  | nil => intro g' h1 h2; exact ⟨h1, h2⟩
  | cons d ds ih =>
    intro g' h1 h2
    have hd := hds d (List.mem_cons_self d ds)
    rw [List.foldl_cons]
    apply ih (fun d' hd' => hds d' (List.mem_cons_of_mem d hd'))
    · rw [buildNeighborStep_weights_pres m tm v g' d (u, v)
        (fun he => hvu (congrArg Prod.fst he))
        (fun he => hd (congrArg Prod.fst he).symm)]
      exact h1
    · rw [buildNeighborStep_weights_pres m tm v g' d (v, u)
        (fun he => hd (congrArg Prod.snd he).symm)
        (fun he => hvu (congrArg Prod.snd he))]
      exact h2

theorem buildStep_at_writes (m : RVCEGameMap) (tm : Option TileRows)
    {u v : Cell} (hu : WalkOK m tm u) (hv : WalkOK m tm v) (hadj : orthAdj u v)
    (g : RVCEGraph) :
    (buildStep m tm g v).weights (u, v) = some (buildWeight tm u) ∧
    (buildStep m tm g v).weights (v, u) = some (buildWeight tm u) := by
  have hvu : u ≠ v := orthAdj_ne hadj
  unfold buildStep
  rw [if_pos (show m.is_walkable v.1 v.2 tm false = true from hv)]
  have hoff : (u.1 - v.1 = 0 ∧ (u.2 - v.2 = 1 ∨ u.2 - v.2 = -1)) ∨
      (u.2 - v.2 = 0 ∧ (u.1 - v.1 = 1 ∨ u.1 - v.1 = -1)) := by
    unfold orthAdj at hadj
    omega
  have hne : ∀ a b : Int, v.1 + a ≠ u.1 ∨ v.2 + b ≠ u.2 →
      ((v.1 + a, v.2 + b) : Cell) ≠ u := by
    intro a b hab he
    have e1 : v.1 + a = u.1 := congrArg Prod.fst he
    have e2 : v.2 + b = u.2 := congrArg Prod.snd he
    rcases hab with hab | hab <;> exact hab (by omega)
  rcases hoff with ⟨c1, c2 | c2⟩ | ⟨c1, c2 | c2⟩
  · -- offset (0, 1): first direction writes, the rest preserve
    show ((([(1, 0), (0, -1), (-1, 0)] : List (Int × Int)).foldl
      (buildNeighborStep m tm v) (buildNeighborStep m tm v g (0, 1))).weights (u, v)
        = _ ∧ _)
    have hw := buildNeighborStep_writes m tm v u g hu (0, 1)
      (Prod.ext (by omega) (by omega)) hvu
    exact foldl_neighbor_pres m tm v u _ hvu _
      (by
        intro d hd
        simp only [List.mem_cons, List.not_mem_nil, or_false] at hd
        rcases hd with rfl | rfl | rfl
        · exact hne 1 0 (Or.inl (by omega))
        · exact hne 0 (-1) (Or.inr (by omega))
        · exact hne (-1) 0 (Or.inl (by omega)))
      _ hw.1 hw.2
  · -- offset (0, -1): third direction writes
    show ((([(-1, 0)] : List (Int × Int)).foldl (buildNeighborStep m tm v)
      (buildNeighborStep m tm v
        (buildNeighborStep m tm v (buildNeighborStep m tm v g (0, 1)) (1, 0))
        (0, -1))).weights (u, v) = _ ∧ _)
    have hw := buildNeighborStep_writes m tm v u
      (buildNeighborStep m tm v (buildNeighborStep m tm v g (0, 1)) (1, 0))
      hu (0, -1) (Prod.ext (by omega) (by omega)) hvu
    exact foldl_neighbor_pres m tm v u _ hvu _
      (by
        intro d hd
        simp only [List.mem_cons, List.not_mem_nil, or_false] at hd
        subst hd
        exact hne (-1) 0 (Or.inl (by omega)))
      _ hw.1 hw.2
  · -- offset (1, 0): second direction writes
    show ((([(0, -1), (-1, 0)] : List (Int × Int)).foldl (buildNeighborStep m tm v)
      (buildNeighborStep m tm v (buildNeighborStep m tm v g (0, 1)) (1, 0))).weights
        (u, v) = _ ∧ _)
    have hw := buildNeighborStep_writes m tm v u
      (buildNeighborStep m tm v g (0, 1)) hu (1, 0)
      (Prod.ext (by omega) (by omega)) hvu
    exact foldl_neighbor_pres m tm v u _ hvu _
      (by
        intro d hd
        simp only [List.mem_cons, List.not_mem_nil, or_false] at hd
        rcases hd with rfl | rfl
        · exact hne 0 (-1) (Or.inr (by omega))
        · exact hne (-1) 0 (Or.inl (by omega)))
      _ hw.1 hw.2
  · -- offset (-1, 0): fourth direction writes
    show ((([] : List (Int × Int)).foldl (buildNeighborStep m tm v)
      (buildNeighborStep m tm v
        (buildNeighborStep m tm v
          (buildNeighborStep m tm v (buildNeighborStep m tm v g (0, 1)) (1, 0))
          (0, -1)) (-1, 0))).weights (u, v) = _ ∧ _)
    exact buildNeighborStep_writes m tm v u _ hu (-1, 0)
      (Prod.ext (by omega) (by omega)) hvu

theorem buildStep_weights_ne (m : RVCEGameMap) (tm : Option TileRows)
    (g : RVCEGraph) (c : Cell) (p : Cell × Cell) (h1 : c ≠ p.1) (h2 : c ≠ p.2) :
    (buildStep m tm g c).weights p = g.weights p := by
  unfold buildStep
  split
  · have haux : ∀ (ds : List (Int × Int)) (g' : RVCEGraph),
        (ds.foldl (buildNeighborStep m tm c) g').weights p = g'.weights p := by
      intro ds
      induction ds with
      | nil => intro g'; rfl
      | cons d ds ih =>
        intro g'
        rw [List.foldl_cons, ih, buildNeighborStep_weights_pres m tm c g' d p
          (fun he => h1 (congrArg Prod.fst he).symm)
          (fun he => h2 (congrArg Prod.snd he).symm)]
    exact haux dirs g
  · rfl

theorem foldl_buildStep_pres (m : RVCEGameMap) (tm : Option TileRows)
    (cs : List Cell) (p : Cell × Cell) (hcs : ∀ c ∈ cs, c ≠ p.1 ∧ c ≠ p.2) :
    ∀ g, (cs.foldl (buildStep m tm) g).weights p = g.weights p := by
  induction cs with
  | nil => intro g; rfl
  | cons c cs ih =>
    intro g
    have hc := hcs c (List.mem_cons_self c cs)
    rw [List.foldl_cons, ih (fun c' hc' => hcs c' (List.mem_cons_of_mem c hc')),
      buildStep_weights_ne m tm g c p hc.1 hc.2]

theorem range_split (n k : Nat) (h : k < n) :
    List.range n =
      List.range k ++ k :: (List.range (n - k - 1)).map (fun t => (k + 1) + t) := by
  have e : n = (k + 1) + (n - k - 1) := by omega
  rw [show List.range n = List.range ((k + 1) + (n - k - 1)) from by rw [← e],
    List.range_add, List.range_succ, List.append_assoc]
  rfl

/-- Splitting the row-major scan at an in-bounds cell `(x, y)`: everything in
the suffix comes strictly later in row-major order. -/
theorem rowMajor_split (w h x y : Nat) (hx : x < w) (hy : y < h) :
    ∃ P C, rowMajor w h = P ++ ((x : Int), (y : Int)) :: C ∧
      ∀ c ∈ C, ((y : Int) < c.2 ∨ (c.2 = (y : Int) ∧ (x : Int) < c.1)) := by
  refine ⟨(List.range y).flatMap
      (fun b : Nat => (List.range w).map fun a : Nat => ((a : Int), (b : Int)))
      ++ (List.range x).map (fun a : Nat => ((a : Int), (y : Int))),
    ((List.range (w - x - 1)).map
        fun t : Nat => (((x + 1 + t : Nat) : Int), (y : Int)))
      ++ (List.range (h - y - 1)).flatMap
        (fun t : Nat =>
          (List.range w).map fun a : Nat => ((a : Int), ((y + 1 + t : Nat) : Int))),
    ?_, ?_⟩
  · unfold rowMajor
    have hrow : (List.range w).map (fun a : Nat => ((a : Int), (y : Int))) =
        (List.range x).map (fun a : Nat => ((a : Int), (y : Int))) ++
          (((x : Int), (y : Int)) :: (List.range (w - x - 1)).map
            (fun t : Nat => (((x + 1 + t : Nat) : Int), (y : Int)))) := by
      rw [range_split w x hx, List.map_append, List.map_cons, List.map_map]
      rfl
    rw [range_split h y hy]
    simp only [List.flatMap_append, List.flatMap_cons]
    rw [hrow]
    simp only [List.flatMap_map, List.append_assoc, List.cons_append]
  · intro c hc
    rcases List.mem_append.mp hc with hc | hc
    · obtain ⟨t, ht, rfl⟩ := List.mem_map.mp hc
      right
      refine ⟨rfl, ?_⟩
      show (x : Int) < ((x + 1 + t : Nat) : Int)
      push_cast
      omega
    · obtain ⟨t, ht, hmem⟩ := List.mem_flatMap.mp hc
      obtain ⟨a, ha, rfl⟩ := List.mem_map.mp hmem
      left
      show (y : Int) < ((y + 1 + t : Nat) : Int)
      push_cast
      omega

/-- C2 (amended): after `build_from_rvce_grid` with a tile layer, the stored
weights of an adjacent walkable pair are *symmetric*, not directional:
`add_edge` writes the same weight under both directed keys, so the last
`add_edge` call for the pair wins, and that call happens while scanning the
row-major-later endpoint, storing the traversal weight of the
row-major-earlier endpoint's tile under both `(u, v)` and `(v, u)`. -/
theorem build_edge_weights_symmetric (m : RVCEGameMap) (tm : Option TileRows)
    {u v : Cell} (hu : WalkOK m tm u) (hv : WalkOK m tm v) (hadj : orthAdj u v)
    (horder : u.2 < v.2 ∨ (u.2 = v.2 ∧ u.1 < v.1)) :
    (build_from_rvce_grid m tm).weights (u, v) = some (buildWeight tm u) ∧
    (build_from_rvce_grid m tm).weights (v, u) = some (buildWeight tm u) := by
  have hub := walkOK_bounds hu
  have hvb := walkOK_bounds hv
  obtain ⟨P, C, hsplit, hafter⟩ :=
    rowMajor_split m.width m.height v.1.toNat v.2.toNat (by omega) (by omega)
  have hveq : ((((v.1.toNat : Nat) : Int)), ((v.2.toNat : Nat) : Int)) = v :=
    Prod.ext (Int.toNat_of_nonneg hvb.1) (Int.toNat_of_nonneg hvb.2.2.1)
  rw [hveq] at hsplit
  have hcs : ∀ c ∈ C, c ≠ u ∧ c ≠ v := by
    intro c hc
    have ha := hafter c hc
    rw [Int.toNat_of_nonneg hvb.2.2.1, Int.toNat_of_nonneg hvb.1] at ha
    constructor
    · intro he
      subst he
      rcases ha with h | ⟨h1, h2⟩ <;> rcases horder with h' | ⟨h1', h2'⟩ <;> omega
    · intro he
      subst he
      rcases ha with h | ⟨h1, h2⟩ <;> omega
  unfold build_from_rvce_grid
  rw [hsplit, List.foldl_append, List.foldl_cons]
  constructor
  · rw [foldl_buildStep_pres m tm C (u, v) (fun c hc => hcs c hc)]
    exact (buildStep_at_writes m tm hu hv hadj _).1
  · rw [foldl_buildStep_pres m tm C (v, u)
      (fun c hc => ⟨(hcs c hc).2, (hcs c hc).1⟩)]
    exact (buildStep_at_writes m tm hu hv hadj _).2

/-- C2 counterexample: on the 2×1 strip (Normal at `(0,0)`, Grass at
`(1,0)`), the stored weight for the direction `(0,0) → (1,0)` is `1`, not the
destination Grass tile's traversal weight `2`: the claimed directional rule
fails because the later `add_edge` call overwrote both directions. -/
theorem edge_weight_not_directional :
    WalkOK mapStrip (some tilesStrip) (0, 0) ∧
    WalkOK mapStrip (some tilesStrip) (1, 0) ∧
    orthAdj (0, 0) (1, 0) ∧
    tileWeight (tileAt tilesStrip 1 0) = ((2 : ℚ) : WithTop ℚ) ∧
    graphStrip.weights ((0, 0), (1, 0)) = some ((1 : ℚ) : WithTop ℚ) ∧
    graphStrip.weights ((0, 0), (1, 0)) ≠ some (tileWeight (tileAt tilesStrip 1 0)) := by
  refine ⟨by decide, by decide, by decide, by decide, by decide, by decide⟩

theorem build_edge_weights_symmetric_witness :
    graphStrip.weights ((0, 0), (1, 0)) = some (buildWeight (some tilesStrip) (0, 0)) ∧
    graphStrip.weights ((1, 0), (0, 0)) = some (buildWeight (some tilesStrip) (0, 0)) :=
  @build_edge_weights_symmetric mapStrip (some tilesStrip) (0, 0) (1, 0)
    (by decide) (by decide) (by decide) (by decide)


/-! ### BFS machinery: parent chains and reconstruction -/

/-- Parent maps only grow during the searches; depths are preserved. -/
theorem pdepth_mono {pm pm' : Cell → Option Cell} {start : Cell}
    (hext : ∀ c p, pm c = some p → pm' c = some p) :
    ∀ {c n}, PDepth pm start c n → PDepth pm' start c n := by
  intro c n h
  induction h with
  | zero => exact PDepth.zero
  | succ hp _ ih => exact PDepth.succ (hext _ _ hp) ih

theorem pdepth_unique {pm : Cell → Option Cell} {start : Cell}
    (hst : pm start = none) :
    ∀ {c n m}, PDepth pm start c n → PDepth pm start c m → n = m := by
  intro c n m h1
  induction h1 generalizing m with
  | zero =>
    intro h2
    cases h2 with
    | zero => rfl
    | succ hp _ => rw [hst] at hp; exact Option.noConfusion hp
  | succ hp hd ih =>
    intro h2
    cases h2 with
    | zero => rw [hst] at hp; exact Option.noConfusion hp
    | succ hp' hd' =>
      rw [hp] at hp'
      injection hp' with e
      subst e
      rw [ih hd']

/-- A parent chain whose links are filtered graph steps yields a walk. -/
theorem pdepth_reach {adj : Cell → List Cell} {tm : Option TileRows}
    {pm : Cell → Option Cell} {start : Cell}
    (hedge : ∀ c p, pm c = some p →
      c ∈ adj p ∧ constructionSkip tm c = false) :
    ∀ {c n}, PDepth pm start c n → ReachF adj tm start c n := by
  intro c n h
  induction h with
  | zero => exact ReachF.refl
  | succ hp _ ih => exact ReachF.step ih (hedge _ _ hp).1 (hedge _ _ hp).2

/-- Successful reconstruction: with enough fuel, `backtrack` returns the
parent chain, which together with the prepended start forms a path ending in
the queried cell. -/
theorem backtrack_complete {pm : Cell → Option Cell} {start : Cell}
    (hst : pm start = none) (R : Cell → Cell → Prop)
    (hedge : ∀ c p, pm c = some p → R p c) :
    ∀ {c n}, PDepth pm start c n →
      ∃ l : List Cell,
        (∀ fuel acc, n ≤ fuel → backtrack pm fuel c acc = some (l ++ acc)) ∧
        l.length = n ∧ (start :: l).getLast? = some c ∧
        (start :: l).Chain' R ∧ ∀ x ∈ l, (pm x).isSome := by
  intro c n h
  induction h with
  | zero =>
    refine ⟨[], ?_, rfl, rfl, List.chain'_singleton start, by simp⟩
    intro fuel acc _
    cases fuel with
    | zero => simp [backtrack, hst]
    | succ f => simp [backtrack, hst]
  | succ hp hd ih =>
    obtain ⟨l, hrun, hlen, hlast, hchain, hmem⟩ := ih
    rename_i c' p' n'
    refine ⟨l ++ [c'], ?_, by simp [hlen], ?_, ?_, ?_⟩
    · intro fuel acc hfuel
      cases fuel with
      | zero => omega
      | succ f =>
        show backtrack pm (f + 1) c' acc = _
        unfold backtrack
        rw [hp]
        show backtrack pm f p' (c' :: acc) = some (l ++ [c'] ++ acc)
        rw [hrun f (c' :: acc) (by omega)]
        simp
    · rw [show start :: (l ++ [c']) = (start :: l) ++ [c'] from rfl]
      exact List.getLast?_concat _
    · rw [show start :: (l ++ [c']) = (start :: l) ++ [c'] from rfl]
      rw [List.chain'_append]
      refine ⟨hchain, List.chain'_singleton c', ?_⟩
      intro x hx y hy
      rw [hlast] at hx
      injection hx with hx
      subst hx
      injection hy with hy
      subst hy
      exact hedge _ _ hp
    · intro x hx
      rcases List.mem_append.mp hx with hx | hx
      · exact hmem x hx
      · rcases List.mem_singleton.mp hx with rfl
        rw [hp]
        rfl

/-- Insufficient fuel makes `backtrack` fail rather than truncate. -/
theorem backtrack_incomplete {pm : Cell → Option Cell} {start : Cell} :
    ∀ {c n}, PDepth pm start c n → ∀ fuel acc, fuel < n →
      backtrack pm fuel c acc = none := by
  intro c n h
  induction h with
  | zero => intro fuel acc hf; omega
  | succ hp hd ih =>
    intro fuel acc hf
    cases fuel with
    | zero => simp [backtrack, hp]
    | succ f =>
      show backtrack pm (f + 1) _ acc = none
      unfold backtrack
      rw [hp]
      exact ih f _ (by omega)


theorem forall2_mem_left {α β : Type} {R : α → β → Prop} :
    ∀ {l1 : List α} {l2 : List β}, List.Forall₂ R l1 l2 → ∀ {a}, a ∈ l1 →
      ∃ b ∈ l2, R a b := by
  intro l1 l2 h
  induction h with
  | nil => intro a ha; exact absurd ha (List.not_mem_nil _)
  | cons hR _ ih =>
    intro a ha
    rcases List.mem_cons.mp ha with rfl | ha
    · exact ⟨_, List.mem_cons_self _ _, hR⟩
    · obtain ⟨b, hb, hRb⟩ := ih ha
      exact ⟨b, List.mem_cons_of_mem _ hb, hRb⟩

/-- The `find_path_bfs` loop invariant. -/
structure BFSInv (adj : Cell → List Cell) (tm : Option TileRows)
    (start goal : Cell) (s : BFSSt) : Prop where
  start_vis : start ∈ s.visited
  parent_start : s.parent start = none
  nodup : s.visited.Nodup
  queue_sub : ∀ c ∈ s.queue, c ∈ s.visited
  count : s.explored + s.queue.length = s.visited.length
  parent_dom : ∀ c p, s.parent c = some p →
    c ∈ s.visited ∧ c ≠ start ∧ p ∈ s.visited ∧ c ∈ adj p ∧
      constructionSkip tm c = false
  depth_ex : ∀ c ∈ s.visited, ∃ k, PDepth s.parent start c k
  depth_min : ∀ c ∈ s.visited, ∀ k j, PDepth s.parent start c k →
    ReachF adj tm start c j → k ≤ j
  closed : ∀ u ∈ s.visited, u ∉ s.queue → ∀ v ∈ adj u,
    constructionSkip tm v = false → v ∈ s.visited
  sorted : ∃ ds : List Nat,
    List.Forall₂ (fun c k => PDepth s.parent start c k) s.queue ds ∧
    ds.Sorted (· ≤ ·) ∧ ∀ a ∈ ds, ∀ b ∈ ds, b ≤ a + 1
  goal_q : goal ∈ s.visited → goal ∈ s.queue

/-- The invariant holding during the neighbour loop of one BFS iteration,
after the current cell (of depth `dc`) has been dequeued. -/
structure BFSMid (adj : Cell → List Cell) (tm : Option TileRows)
    (start goal current : Cell) (dc : Nat) (s : BFSSt) : Prop where
  start_vis : start ∈ s.visited
  parent_start : s.parent start = none
  nodup : s.visited.Nodup
  queue_sub : ∀ c ∈ s.queue, c ∈ s.visited
  count : s.explored + s.queue.length = s.visited.length
  parent_dom : ∀ c p, s.parent c = some p →
    c ∈ s.visited ∧ c ≠ start ∧ p ∈ s.visited ∧ c ∈ adj p ∧
      constructionSkip tm c = false
  depth_ex : ∀ c ∈ s.visited, ∃ k, PDepth s.parent start c k
  depth_min : ∀ c ∈ s.visited, ∀ k j, PDepth s.parent start c k →
    ReachF adj tm start c j → k ≤ j
  cur_vis : current ∈ s.visited
  cur_depth : PDepth s.parent start current dc
  closed_mid : ∀ u ∈ s.visited, u ∉ s.queue → u ≠ current → ∀ v ∈ adj u,
    constructionSkip tm v = false → v ∈ s.visited
  window : ∃ ds : List Nat,
    List.Forall₂ (fun c k => PDepth s.parent start c k) s.queue ds ∧
    ds.Sorted (· ≤ ·) ∧ ∀ a ∈ ds, dc ≤ a ∧ a ≤ dc + 1
  goal_q : goal ∈ s.visited → goal ∈ s.queue

theorem bfsInv_parent_unvis {adj tm start goal s} (inv : BFSInv adj tm start goal s)
    {c : Cell} (hc : c ∉ s.visited) : s.parent c = none := by
  cases h : s.parent c with
  | none => rfl
  | some p => exact absurd (inv.parent_dom c p h).1 hc

theorem bfsMid_parent_unvis {adj tm start goal current dc s}
    (inv : BFSMid adj tm start goal current dc s)
    {c : Cell} (hc : c ∉ s.visited) : s.parent c = none := by
  cases h : s.parent c with
  | none => rfl
  | some p => exact absurd (inv.parent_dom c p h).1 hc

/-- Dequeuing a non-goal current cell turns the loop invariant into the
mid-iteration invariant at the head depth. -/
theorem bfs_dequeue {adj tm start goal s} (inv : BFSInv adj tm start goal s)
    {current : Cell} {rest : List Cell} (hq : s.queue = current :: rest)
    (hng : current ≠ goal) :
    ∃ dc, BFSMid adj tm start goal current dc
      { s with queue := rest, explored := s.explored + 1 } := by
  obtain ⟨ds, hf2, hsort, hwin⟩ := inv.sorted
  rw [hq] at hf2
  cases hf2 with
  | cons hR hf2' =>
    rename_i dc ds'
    refine ⟨dc, ?_⟩
    have hcount := inv.count
    rw [hq] at hcount
    refine ⟨inv.start_vis, inv.parent_start, inv.nodup,
      fun c hc => inv.queue_sub c (by rw [hq]; exact List.mem_cons_of_mem _ hc),
      ?_,
      inv.parent_dom, inv.depth_ex, inv.depth_min,
      inv.queue_sub current (by rw [hq]; exact List.mem_cons_self _ _),
      hR, ?_, ?_, ?_⟩
    · show s.explored + 1 + rest.length = s.visited.length
      rw [List.length_cons] at hcount
      omega
    · intro u hu hunq hunc v hv hsv
      refine inv.closed u hu ?_ v hv hsv
      rw [hq]
      intro hmem
      rcases List.mem_cons.mp hmem with rfl | hmem
      · exact hunc rfl
      · exact hunq hmem
    · refine ⟨ds', hf2', (List.sorted_cons.mp hsort).2, ?_⟩
      intro a ha
      constructor
      · exact (List.sorted_cons.mp hsort).1 a ha
      · exact hwin dc (List.mem_cons_self _ _) a (List.mem_cons_of_mem _ ha)
    · intro hg
      have := inv.goal_q hg
      rw [hq] at this
      rcases List.mem_cons.mp this with rfl | h
      · exact absurd rfl hng
      · exact h


/-- The cut argument: while the mid-iteration invariant holds, every
filtered walk ending outside the visited set is longer than the dequeued
cell's depth. -/
theorem bfs_cut {adj : Cell → List Cell} {tm : Option TileRows}
    {start goal current : Cell} {dc : Nat} {s : BFSSt}
    (inv : BFSMid adj tm start goal current dc s) :
    ∀ {z j}, ReachF adj tm start z j → z ∉ s.visited → dc + 1 ≤ j := by
  intro z j h
  induction h with
  | refl => intro hz; exact absurd inv.start_vis hz
  | step hw he hs ih =>
    rename_i u z' j'
    intro hz
    by_cases hu : u ∈ s.visited
    · obtain ⟨ku, hku⟩ := inv.depth_ex u hu
      have hmin : ku ≤ j' := inv.depth_min u hu ku j' hku hw
      have hqc : u ∈ s.queue ∨ u = current := by
        by_contra hcon
        push_neg at hcon
        exact hz (inv.closed_mid u hu hcon.1 hcon.2 z' he hs)
      rcases hqc with hq | rfl
      · obtain ⟨ds, hf2, _, hwin⟩ := inv.window
        obtain ⟨du, hdu, hpd⟩ := forall2_mem_left hf2 hq
        have he1 : ku = du := pdepth_unique inv.parent_start hku hpd
        have he2 := (hwin du hdu).1
        omega
      · have he1 : ku = dc := pdepth_unique inv.parent_start hku inv.cur_depth
        omega
    · have := ih hu
      omega

/-- One step of the BFS neighbour loop preserves the mid-iteration invariant,
can only grow the visited set, and ensures the neighbour ends up visited
unless it is construction-skipped. -/
theorem bfsVisit_mid {adj : Cell → List Cell} {tm : Option TileRows}
    {start goal current : Cell} {dc : Nat} {s : BFSSt}
    (inv : BFSMid adj tm start goal current dc s) (n : Cell)
    (hn : n ∈ adj current) :
    BFSMid adj tm start goal current dc (bfsVisit tm current s n) ∧
    (∀ c ∈ s.visited, c ∈ (bfsVisit tm current s n).visited) ∧
    (constructionSkip tm n = false → n ∈ (bfsVisit tm current s n).visited) := by
  unfold bfsVisit
  by_cases hv : n ∈ s.visited
  · rw [if_pos hv]
    exact ⟨inv, fun c hc => hc, fun _ => hv⟩
  · rw [if_neg hv]
    by_cases hsk : constructionSkip tm n = true
    · rw [if_pos hsk]
      refine ⟨inv, fun c hc => hc, ?_⟩
      intro hsf
      rw [hsf] at hsk
      exact Bool.noConfusion hsk
    · have hsf : constructionSkip tm n = false := by
        revert hsk
        cases constructionSkip tm n <;> simp
      rw [if_neg hsk]
      have hns : n ≠ start := fun he => hv (he ▸ inv.start_vis)
      have hext : ∀ c p, s.parent c = some p →
          (fun c => if c = n then some current else s.parent c) c = some p := by
        intro c p hc
        by_cases hcn : c = n
        · subst hcn
          rw [bfsMid_parent_unvis inv hv] at hc
          exact Option.noConfusion hc
        · simp only [if_neg hcn]
          exact hc
      have hpmn : (fun c => if c = n then some current else s.parent c) n
          = some current := by simp
      have hpm_old : ∀ c, c ≠ n →
          (fun c => if c = n then some current else s.parent c) c = s.parent c := by
        intro c hcn
        simp only [if_neg hcn]
      have hpst : (fun c => if c = n then some current else s.parent c) start
          = none := by
        rw [hpm_old start (Ne.symm hns)]
        exact inv.parent_start
      have hback : ∀ c k,
          PDepth (fun c => if c = n then some current else s.parent c) start c k →
            c ∈ s.visited → PDepth s.parent start c k := by
        intro c k h
        induction h with
        | zero => intro _; exact PDepth.zero
        | succ hp hd ih =>
          rename_i c' p' k'
          intro hc
          have hcn : c' ≠ n := fun he => hv (he ▸ hc)
          rw [if_neg hcn] at hp
          exact PDepth.succ hp (ih (inv.parent_dom c' p' hp).2.2.1)
      have hnd : PDepth (fun c => if c = n then some current else s.parent c)
          start n (dc + 1) :=
        PDepth.succ hpmn (pdepth_mono hext inv.cur_depth)
      refine ⟨⟨List.mem_cons_of_mem _ inv.start_vis, hpst,
        List.nodup_cons.mpr ⟨hv, inv.nodup⟩, ?_, ?_, ?_, ?_, ?_,
        List.mem_cons_of_mem _ inv.cur_vis, pdepth_mono hext inv.cur_depth,
        ?_, ?_, ?_⟩,
        fun c hc => List.mem_cons_of_mem _ hc,
        fun _ => List.mem_cons_self _ _⟩
      · -- queue_sub
        intro c hc
        rcases List.mem_append.mp hc with hc | hc
        · exact List.mem_cons_of_mem _ (inv.queue_sub c hc)
        · rcases List.mem_singleton.mp hc with rfl
          exact List.mem_cons_self _ _
      · -- count
        show s.explored + (s.queue ++ [n]).length = (n :: s.visited).length
        simp only [List.length_append, List.length_cons, List.length_nil]
        have := inv.count
        omega
      · -- parent_dom
        intro c p hc
        have hc' : (if c = n then some current else s.parent c) = some p := hc
        by_cases hcn : c = n
        · subst hcn
          rw [if_pos rfl] at hc'
          injection hc' with hc'
          subst hc' 
          exact ⟨List.mem_cons_self _ _, hns,
            List.mem_cons_of_mem _ inv.cur_vis, hn, hsf⟩
        · rw [if_neg hcn] at hc'
          obtain ⟨h1, h2, h3, h4, h5⟩ := inv.parent_dom c p hc' 
          exact ⟨List.mem_cons_of_mem _ h1, h2, List.mem_cons_of_mem _ h3, h4, h5⟩
      · -- depth_ex
        intro c hc
        rcases List.mem_cons.mp hc with rfl | hc
        · exact ⟨dc + 1, hnd⟩
        · obtain ⟨k, hk⟩ := inv.depth_ex c hc
          exact ⟨k, pdepth_mono hext hk⟩
      · -- depth_min
        intro c hc k j hk hj
        rcases List.mem_cons.mp hc with rfl | hc
        · have hkd : k = dc + 1 := pdepth_unique hpst hk hnd
          have := bfs_cut inv hj hv
          omega
        · exact inv.depth_min c hc k j (hback c k hk hc) hj
      · -- closed_mid
        intro u hu huq hunc v hv' hsv
        rcases List.mem_cons.mp hu with rfl | hu
        · exact absurd (List.mem_append.mpr (Or.inr (List.mem_singleton.mpr rfl))) huq
        · have huq' : u ∉ s.queue := fun h => huq (List.mem_append.mpr (Or.inl h))
          exact List.mem_cons_of_mem _ (inv.closed_mid u hu huq' hunc v hv' hsv)
      · -- window
        obtain ⟨ds, hf2, hsort, hwin⟩ := inv.window
        refine ⟨ds ++ [dc + 1], ?_, ?_, ?_⟩
        · refine List.rel_append (hf2.imp ?_) ?_
          · intro a b hab
            exact pdepth_mono hext hab
          · exact List.Forall₂.cons hnd List.Forall₂.nil
        · show List.Pairwise _ _
          rw [List.pairwise_append]
          refine ⟨hsort, List.pairwise_singleton _ _, ?_⟩
          intro a ha b hb
          rcases List.mem_singleton.mp hb with rfl
          exact (hwin a ha).2
        · intro a ha
          rcases List.mem_append.mp ha with ha | ha
          · exact hwin a ha
          · rcases List.mem_singleton.mp ha with rfl
            omega
      · -- goal_q
        intro hg
        rcases List.mem_cons.mp hg with rfl | hg
        · exact List.mem_append.mpr (Or.inr (List.mem_singleton.mpr rfl))
        · exact List.mem_append.mpr (Or.inl (inv.goal_q hg))


theorem bfs_fold {adj : Cell → List Cell} {tm : Option TileRows}
    {start goal current : Cell} {dc : Nat} (ns : List Cell)
    (hsub : ∀ nn ∈ ns, nn ∈ adj current) :
    ∀ s, BFSMid adj tm start goal current dc s →
      BFSMid adj tm start goal current dc (ns.foldl (bfsVisit tm current) s) ∧
      (∀ c ∈ s.visited, c ∈ (ns.foldl (bfsVisit tm current) s).visited) ∧
      (∀ nn ∈ ns, constructionSkip tm nn = false →
        nn ∈ (ns.foldl (bfsVisit tm current) s).visited) := by
  induction ns with
  | nil =>
    intro s inv
    exact ⟨inv, fun c hc => hc, by simp⟩
  | cons n ns ih =>
    intro s inv
    have hstep := bfsVisit_mid inv n (hsub n (List.mem_cons_self _ _))
    have hrest := ih (fun nn h => hsub nn (List.mem_cons_of_mem _ h)) _ hstep.1
    refine ⟨hrest.1, ?_, ?_⟩
    · intro c hc
      exact hrest.2.1 _ (hstep.2.1 c hc)
    · intro nn hnn hs
      rcases List.mem_cons.mp hnn with rfl | hnn
      · exact hrest.2.1 _ (hstep.2.2 hs)
      · exact hrest.2.2 nn hnn hs

theorem bfs_exit {adj : Cell → List Cell} {tm : Option TileRows}
    {start goal current : Cell} {dc : Nat} {s : BFSSt}
    (inv : BFSMid adj tm start goal current dc s)
    (hproc : ∀ v ∈ adj current, constructionSkip tm v = false → v ∈ s.visited) :
    BFSInv adj tm start goal s := by
  refine ⟨inv.start_vis, inv.parent_start, inv.nodup, inv.queue_sub, inv.count,
    inv.parent_dom, inv.depth_ex, inv.depth_min, ?_, ?_, inv.goal_q⟩
  · intro u hu huq v hv hs
    by_cases huc : u = current
    · subst huc
      exact hproc v hv hs
    · exact inv.closed_mid u hu huq huc v hv hs
  · obtain ⟨ds, hf2, hsort, hwin⟩ := inv.window
    refine ⟨ds, hf2, hsort, ?_⟩
    intro a ha b hb
    have h1 := (hwin a ha).1
    have h2 := (hwin b hb).2
    omega

theorem bfs_init (adj : Cell → List Cell) (tm : Option TileRows)
    (start goal : Cell) :
    BFSInv adj tm start goal
      { queue := [start], visited := [start], parent := fun _ => none,
        explored := 0 } := by
  refine ⟨List.mem_singleton.mpr rfl, rfl, List.nodup_singleton _,
    fun c hc => hc, rfl, ?_, ?_, ?_, ?_, ?_, fun hg => hg⟩
  · intro c p hc
    exact Option.noConfusion hc
  · intro c hc
    rcases List.mem_singleton.mp hc with rfl
    exact ⟨0, PDepth.zero⟩
  · intro c hc k j hk hj
    rcases List.mem_singleton.mp hc with rfl
    have h0 : k = 0 := pdepth_unique rfl hk PDepth.zero
    omega
  · intro u hu huq
    exact absurd hu huq
  · refine ⟨[0], List.Forall₂.cons PDepth.zero List.Forall₂.nil,
      List.sorted_singleton _, ?_⟩
    intro a ha b hb
    rcases List.mem_singleton.mp ha with rfl
    rcases List.mem_singleton.mp hb with rfl
    omega

theorem bfsLoop_nil {adj : Cell → List Cell} {tm : Option TileRows}
    {start goal : Cell} {f : Nat} {vis : List Cell} {pm : Cell → Option Cell}
    {ex : Nat} :
    bfsLoop adj tm start goal (f + 1) ⟨[], vis, pm, ex⟩ = some ([], ex) := rfl

theorem bfsLoop_cons {adj : Cell → List Cell} {tm : Option TileRows}
    {start goal : Cell} {f : Nat} {current : Cell} {rest vis : List Cell}
    {pm : Cell → Option Cell} {ex : Nat} :
    bfsLoop adj tm start goal (f + 1) ⟨current :: rest, vis, pm, ex⟩ =
      if current = goal then
        (backtrack pm (f + 1) current []).map (fun acc => (start :: acc, ex + 1))
      else
        bfsLoop adj tm start goal f
          ((adj current).foldl (bfsVisit tm current) ⟨rest, vis, pm, ex + 1⟩) := rfl

/-- The complete specification of the BFS loop under its invariant: a
successful run either reports a shortest filtered path to the goal, or
reports the empty path with the goal unreachable and `nodes_explored` equal
to the size of the reachable component. -/
theorem bfsLoop_spec (adj : Cell → List Cell) (tm : Option TileRows)
    (start goal : Cell) :
    ∀ (fuel : Nat) (s : BFSSt) (p : List Cell) (n : Nat),
      BFSInv adj tm start goal s →
      bfsLoop adj tm start goal fuel s = some (p, n) →
      ((p.head? = some start ∧ p.getLast? = some goal ∧
          p.Chain' (fun a b => b ∈ adj a ∧ constructionSkip tm b = false) ∧
          (∀ j, ReachF adj tm start goal j → p.length ≤ j + 1) ∧
          ∃ dg, p.length = dg + 1 ∧ ReachF adj tm start goal dg)
       ∨ (p = [] ∧ (¬ ∃ k, ReachF adj tm start goal k) ∧
          ∃ S : Finset Cell, (∀ c, c ∈ S ↔ ∃ k, ReachF adj tm start c k) ∧
            n = S.card)) := by
  intro fuel
  induction fuel with
  | zero =>
    intro s p n inv hrun
    exact absurd hrun (by simp [bfsLoop])
  | succ f ih =>
    intro s p n inv hrun
    obtain ⟨q, vis, pm, ex⟩ := s
    have hedge : ∀ c w,
        (BFSSt.mk q vis pm ex).parent c = some w →
        c ∈ adj w ∧ constructionSkip tm c = false := by
      intro c w hc
      obtain ⟨-, -, -, h4, h5⟩ := inv.parent_dom c w hc
      exact ⟨h4, h5⟩
    cases q with
    | nil =>
      rw [bfsLoop_nil] at hrun
      injection hrun with hrun
      have hp : p = [] := (congrArg Prod.fst hrun).symm
      have hn : n = ex := (congrArg Prod.snd hrun).symm
      right
      have hreach_vis : ∀ c k, ReachF adj tm start c k → c ∈ vis := by
        intro c k h
        induction h with
        | refl => exact inv.start_vis
        | step hw he hs ihw =>
          exact inv.closed _ ihw (List.not_mem_nil _) _ he hs
      have hvis_reach : ∀ c ∈ vis, ∃ k, ReachF adj tm start c k := by
        intro c hc
        obtain ⟨k, hk⟩ := inv.depth_ex c hc
        exact ⟨k, pdepth_reach hedge hk⟩
      refine ⟨hp, ?_, vis.toFinset, ?_, ?_⟩
      · rintro ⟨k, hk⟩
        exact List.not_mem_nil _ (inv.goal_q (hreach_vis goal k hk))
      · intro c
        rw [List.mem_toFinset]
        constructor
        · exact hvis_reach c
        · rintro ⟨k, hk⟩
          exact hreach_vis c k hk
      · have hnd : vis.Nodup := inv.nodup
        rw [List.toFinset_card_of_nodup hnd]
        have hcount : ex + (0 : Nat) = vis.length := inv.count
        omega
    | cons current rest =>
      rw [bfsLoop_cons] at hrun
      by_cases hcg : current = goal
      · subst hcg
        rw [if_pos rfl] at hrun
        have hcv : current ∈ vis :=
          inv.queue_sub current (List.mem_cons_self _ _)
        obtain ⟨dg, hdg⟩ := inv.depth_ex current hcv
        obtain ⟨l, hlrun, hllen, hllast, hlchain, -⟩ :=
          backtrack_complete inv.parent_start
            (fun a b => b ∈ adj a ∧ constructionSkip tm b = false) hedge hdg
        by_cases hfuel : dg ≤ f + 1
        · rw [hlrun (f + 1) [] hfuel] at hrun
          injection hrun with hrun
          have hp : p = start :: (l ++ []) := (congrArg Prod.fst hrun).symm
          rw [List.append_nil] at hp
          left
          subst hp
          refine ⟨rfl, hllast, hlchain, ?_, dg, by simp [hllen],
            pdepth_reach hedge hdg⟩
          intro j hj
          have := inv.depth_min current hcv dg j hdg hj
          simp only [List.length_cons, hllen]
          omega
        · rw [backtrack_incomplete hdg (f + 1) [] (by omega)] at hrun
          exact Option.noConfusion hrun
      · rw [if_neg hcg] at hrun
        obtain ⟨dc, hmid⟩ := bfs_dequeue inv rfl hcg
        obtain ⟨hmid', -, hproc⟩ :=
          bfs_fold (adj current) (fun nn h => h) _ hmid
        exact ih _ p n (bfs_exit hmid' hproc) hrun


/-! ### Characterisation of the built graph's adjacency -/

theorem mem_adjInsert_iff (adj : Cell → List Cell) (a b x y : Cell) :
    y ∈ adjInsert adj a b x ↔ y ∈ adj x ∨ (x = a ∧ y = b) := by
  unfold adjInsert
  by_cases h1 : b ∈ adj a
  · rw [if_pos h1]
    constructor
    · exact Or.inl
    · rintro (h | ⟨rfl, rfl⟩)
      · exact h
      · exact h1
  · rw [if_neg h1]
    by_cases h2 : x = a
    · subst h2
      rw [if_pos rfl]
      rw [List.mem_append, List.mem_singleton]
      constructor
      · rintro (h | rfl)
        · exact Or.inl h
        · exact Or.inr ⟨rfl, rfl⟩
      · rintro (h | ⟨-, rfl⟩)
        · exact Or.inl h
        · exact Or.inr rfl
    · rw [if_neg h2]
      constructor
      · exact Or.inl
      · rintro (h | ⟨he, -⟩)
        · exact h
        · exact absurd he h2

theorem mem_add_edge_adj_iff (g : RVCEGraph) (c n : Cell) (w : WithTop ℚ)
    (x y : Cell) :
    y ∈ (g.add_edge c n w).adj_list x ↔
      y ∈ g.adj_list x ∨ (x = c ∧ y = n) ∨ (x = n ∧ y = c) := by
  show y ∈ adjInsert (adjInsert g.adj_list c n) n c x ↔ _
  rw [mem_adjInsert_iff, mem_adjInsert_iff]
  tauto

theorem adj_mono_buildNeighborStep (m : RVCEGameMap) (tm : Option TileRows)
    (c : Cell) (g' : RVCEGraph) (d : Int × Int) {x y : Cell}
    (h : y ∈ g'.adj_list x) :
    y ∈ (buildNeighborStep m tm c g' d).adj_list x := by
  rw [buildNeighborStep_eq]
  split
  · rw [mem_add_edge_adj_iff]
    exact Or.inl h
  · exact h

theorem adj_mono_buildStep (m : RVCEGameMap) (tm : Option TileRows)
    (g : RVCEGraph) (c : Cell) {x y : Cell} (h : y ∈ g.adj_list x) :
    y ∈ (buildStep m tm g c).adj_list x := by
  unfold buildStep
  split
  · have haux : ∀ (ds : List (Int × Int)) (g' : RVCEGraph), y ∈ g'.adj_list x →
        y ∈ (ds.foldl (buildNeighborStep m tm c) g').adj_list x := by
      intro ds
      induction ds with
      | nil => intro g' h'; exact h'
      | cons d ds ih =>
        intro g' h'
        exact ih _ (adj_mono_buildNeighborStep m tm c g' d h')
    exact haux dirs g h
  · exact h

/-- Soundness of the built adjacency: every recorded neighbour relation is an
orthogonal step between mutually walkable cells. -/
theorem build_adj_sound (m : RVCEGameMap) (tm : Option TileRows) :
    ∀ {u v : Cell}, v ∈ (build_from_rvce_grid m tm).adj_list u →
      WalkOK m tm u ∧ WalkOK m tm v ∧ orthAdj u v := by
  suffices haux : ∀ (cs : List Cell) (g : RVCEGraph),
      (∀ u v : Cell, v ∈ g.adj_list u →
        WalkOK m tm u ∧ WalkOK m tm v ∧ orthAdj u v) →
      ∀ u v : Cell, v ∈ (cs.foldl (buildStep m tm) g).adj_list u →
        WalkOK m tm u ∧ WalkOK m tm v ∧ orthAdj u v by
    intro u v h
    refine haux (rowMajor m.width m.height) RVCEGraph.empty ?_ u v h
    intro u' v' h'
    exact absurd h' (List.not_mem_nil _)
  intro cs
  induction cs with
  | nil => intro g hg u v h; exact hg u v h
  | cons c cs ih =>
    intro g hg u v h
    refine ih (buildStep m tm g c) ?_ u v h
    intro u' v' h'
    unfold buildStep at h'
    by_cases hw : m.is_walkable c.1 c.2 tm false = true
    · rw [if_pos hw] at h'
      have haux2 : ∀ (ds : List (Int × Int)) (g' : RVCEGraph),
          (∀ a b : Cell, b ∈ g'.adj_list a →
            WalkOK m tm a ∧ WalkOK m tm b ∧ orthAdj a b) →
          (∀ d ∈ ds, d ∈ dirs) →
          ∀ a b : Cell, b ∈ (ds.foldl (buildNeighborStep m tm c) g').adj_list a →
            WalkOK m tm a ∧ WalkOK m tm b ∧ orthAdj a b := by
        intro ds
        induction ds with
        | nil => intro g' hg' _ a b hb; exact hg' a b hb
        | cons d ds ihd =>
          intro g' hg' hds a b hb
          refine ihd _ ?_ (fun d' hd' => hds d' (List.mem_cons_of_mem _ hd'))
            a b hb
          intro a' b' hb'
          rw [buildNeighborStep_eq] at hb'
          by_cases hcond : 0 ≤ c.1 + d.1 ∧ c.1 + d.1 < (m.width : Int) ∧
              0 ≤ c.2 + d.2 ∧ c.2 + d.2 < (m.height : Int) ∧
              m.is_walkable (c.1 + d.1) (c.2 + d.2) tm false = true
          · rw [if_pos hcond] at hb'
            rw [mem_add_edge_adj_iff] at hb'
            have hdd := hds d (List.mem_cons_self _ _)
            have horth : orthAdj c (c.1 + d.1, c.2 + d.2) := by
              unfold dirs at hdd
              unfold orthAdj
              simp only [List.mem_cons, List.not_mem_nil, or_false] at hdd
              rcases hdd with rfl | rfl | rfl | rfl <;> simp
            rcases hb' with hb' | ⟨rfl, rfl⟩ | ⟨rfl, rfl⟩
            · exact hg' a' b' hb'
            · exact ⟨hw, hcond.2.2.2.2, horth⟩
            · refine ⟨hcond.2.2.2.2, hw, ?_⟩
              unfold orthAdj at horth ⊢
              omega
          · rw [if_neg hcond] at hb'
            exact hg' a' b' hb'
      exact haux2 dirs g (fun a b hb => hg a b hb) (fun d hd => hd) u' v' h'
    · rw [if_neg hw] at h'
      exact hg u' v' h'

/-- Completeness of the built adjacency: every orthogonal step between
mutually walkable cells is recorded. -/
theorem build_adj_complete (m : RVCEGameMap) (tm : Option TileRows)
    {u v : Cell} (hu : WalkOK m tm u) (hv : WalkOK m tm v)
    (hadj : orthAdj u v) :
    v ∈ (build_from_rvce_grid m tm).adj_list u := by
  have hub := walkOK_bounds hu
  have hvb := walkOK_bounds hv
  have humem : u ∈ rowMajor m.width m.height := by
    unfold rowMajor
    rw [List.mem_flatMap]
    refine ⟨u.2.toNat, ?_, ?_⟩
    · rw [List.mem_range]
      omega
    · rw [List.mem_map]
      refine ⟨u.1.toNat, ?_, ?_⟩
      · rw [List.mem_range]
        omega
      · exact Prod.ext (Int.toNat_of_nonneg hub.1) (Int.toNat_of_nonneg hub.2.2.1)
  obtain ⟨P, C, hsplit⟩ := List.append_of_mem humem
  unfold build_from_rvce_grid
  rw [hsplit, List.foldl_append, List.foldl_cons]
  have hauxC : ∀ (cs : List Cell) (g' : RVCEGraph),
      v ∈ g'.adj_list u → v ∈ (cs.foldl (buildStep m tm) g').adj_list u := by
    intro cs
    induction cs with
    | nil => intro g' h'; exact h'
    | cons c cs ihc =>
      intro g' h'
      exact ihc _ (adj_mono_buildStep m tm g' c h')
  apply hauxC C
  generalize P.foldl (buildStep m tm) RVCEGraph.empty = G1
  unfold buildStep
  rw [if_pos (show m.is_walkable u.1 u.2 tm false = true from hu)]
  have hoff : (v.1 - u.1, v.2 - u.2) ∈ dirs := by
    have hadj' := hadj
    unfold orthAdj at hadj'
    unfold dirs
    have hcases : (v.1 - u.1 = 0 ∧ (v.2 - u.2 = 1 ∨ v.2 - u.2 = -1)) ∨
        (v.2 - u.2 = 0 ∧ (v.1 - u.1 = 1 ∨ v.1 - u.1 = -1)) := by omega
    rcases hcases with ⟨e1, e2 | e2⟩ | ⟨e1, e2 | e2⟩ <;>
      simp [Prod.ext_iff, e1, e2]
  obtain ⟨D1, D2, hdirs⟩ := List.append_of_mem hoff
  rw [hdirs, List.foldl_append, List.foldl_cons]
  have hauxD : ∀ (ds : List (Int × Int)) (g' : RVCEGraph),
      v ∈ g'.adj_list u → v ∈ (ds.foldl (buildNeighborStep m tm u) g').adj_list u := by
    intro ds
    induction ds with
    | nil => intro g' h'; exact h'
    | cons d ds ihd =>
      intro g' h'
      exact ihd _ (adj_mono_buildNeighborStep m tm u g' d h')
  apply hauxD D2
  rw [buildNeighborStep_eq]
  rw [show u.1 + (v.1 - u.1) = v.1 from by omega,
    show u.2 + (v.2 - u.2) = v.2 from by omega]
  rw [if_pos ⟨hvb.1, hvb.2.1, hvb.2.2.1, hvb.2.2.2, hv⟩]
  rw [mem_add_edge_adj_iff]
  exact Or.inr (Or.inl ⟨rfl, rfl⟩)

/-! ### Conversions between grid paths, adjacency paths, and filtered walks -/

/-- A walkable cell (queried without a key) is never skipped by the BFS
construction filter: walkability rules out a `CONSTRUCTION` tile. -/
theorem walkOK_not_skip {m : RVCEGameMap} {tm : Option TileRows} {c : Cell}
    (h : WalkOK m tm c) : constructionSkip tm c = false := by
  cases tm with
  | none => rfl
  | some rows =>
    have hw : tileWalkable (tileAt rows c.1 c.2) = true := by
      unfold WalkOK RVCEGameMap.is_walkable at h
      by_cases hb : 0 ≤ c.1 ∧ c.1 < (m.width : Int) ∧ 0 ≤ c.2 ∧
          c.2 < (m.height : Int)
      · rw [if_pos hb] at h
        by_cases hg : m.gridAt c.1 c.2 = 1
        · rw [if_pos hg] at h
          exact Bool.noConfusion h
        · rw [if_neg hg] at h
          by_cases hwk : tileWalkable (tileAt rows c.1 c.2) = true
          · exact hwk
          · exfalso
            simp only [Bool.not_eq_true] at hwk
            simp [hwk] at h
      · rw [if_neg hb] at h
        exact Bool.noConfusion h
    have hne : tileAt rows c.1 c.2 ≠ TileType.CONSTRUCTION := by
      intro he
      rw [he] at hw
      exact absurd hw (by decide)
    simp [constructionSkip, hne]

/-- A filtered walk is in particular an unfiltered walk. -/
theorem reachF_drop_filter {adj : Cell → List Cell} {tm : Option TileRows}
    {start : Cell} : ∀ {c k}, ReachF adj tm start c k →
      ReachF adj none start c k := by
  intro c k h
  induction h with
  | refl => exact ReachF.refl
  | step _ he _ ih => exact ReachF.step ih he rfl

/-- Every cell of a chain other than the head is the target of a chain step. -/
theorem chain'_tail_rel {R : Cell → Cell → Prop} :
    ∀ (a : Cell) (l : List Cell), (a :: l).Chain' R → ∀ c ∈ l, ∃ x, R x c := by
  intro a l
  induction l generalizing a with
  | nil => intro _ c hc; exact absurd hc (List.not_mem_nil _)
  | cons b l ih =>
    intro hch c hc
    rw [List.chain'_cons] at hch
    rcases List.mem_cons.mp hc with rfl | hc
    · exact ⟨a, hch.1⟩
    · exact ih b hch.2 c hc

/-- Extending a walk along an adjacency chain. -/
theorem adjChain_reach {adj : Cell → List Cell} {start : Cell} :
    ∀ (l : List Cell) (a : Cell) (k : Nat) (z : Cell),
      ReachF adj none start a k → (a :: l).Chain' (fun x y => y ∈ adj x) →
      (a :: l).getLast? = some z → ReachF adj none start z (k + l.length) := by
  intro l
  induction l with
  | nil =>
    intro a k z ha _ hz
    rw [List.getLast?_singleton] at hz
    injection hz with hz
    subst hz
    exact ha
  | cons b l ih =>
    intro a k z ha hch hz
    rw [List.chain'_cons] at hch
    rw [List.getLast?_cons_cons] at hz
    have hb : ReachF adj none start b (k + 1) := ReachF.step ha hch.1 rfl
    have hrec := ih b (k + 1) z hb hch.2 hz
    have hlen : k + 1 + l.length = k + (b :: l).length := by
      simp only [List.length_cons]
      omega
    rw [hlen] at hrec
    exact hrec

/-- A non-empty adjacency path from `start` to `goal` yields a walk of
one less than its cell count. -/
theorem adjPath_reach {adj : Cell → List Cell} {start goal : Cell}
    {q : List Cell} (h : IsAdjPath adj start goal q) :
    ReachF adj none start goal (q.length - 1) := by
  obtain ⟨hh, hl, hch⟩ := h
  cases q with
  | nil => exact absurd hh (by simp)
  | cons a t =>
    rw [List.head?_cons] at hh
    injection hh with hh
    subst hh
    have := adjChain_reach t a 0 goal ReachF.refl hch hl
    simpa using this

/-- Extending a filtered walk in the built graph along a chain of orthogonal
steps between walkable cells. -/
theorem gridChain_reach (m : RVCEGameMap) (tm : Option TileRows) (start : Cell) :
    ∀ (l : List Cell) (a : Cell) (k : Nat) (z : Cell),
      ReachF (build_from_rvce_grid m tm).adj_list tm start a k →
      WalkOK m tm a → (∀ c ∈ l, WalkOK m tm c) →
      (a :: l).Chain' orthAdj → (a :: l).getLast? = some z →
      ReachF (build_from_rvce_grid m tm).adj_list tm start z (k + l.length) := by
  intro l
  induction l with
  | nil =>
    intro a k z ha _ _ _ hz
    rw [List.getLast?_singleton] at hz
    injection hz with hz
    subst hz
    exact ha
  | cons b l ih =>
    intro a k z ha hwa hwl hch hz
    rw [List.chain'_cons] at hch
    rw [List.getLast?_cons_cons] at hz
    have hwb : WalkOK m tm b := hwl b (List.mem_cons_self _ _)
    have hb : ReachF (build_from_rvce_grid m tm).adj_list tm start b (k + 1) :=
      ReachF.step ha (build_adj_complete m tm hwa hwb hch.1) (walkOK_not_skip hwb)
    have hrec := ih b (k + 1) z hb hwb
      (fun c hc => hwl c (List.mem_cons_of_mem _ hc)) hch.2 hz
    have hlen : k + 1 + l.length = k + (b :: l).length := by
      simp only [List.length_cons]
      omega
    rw [hlen] at hrec
    exact hrec

/-- A grid path from `start` to `goal` yields a filtered walk in the built
graph of one less than its cell count. -/
theorem gridPath_reach (m : RVCEGameMap) (tm : Option TileRows)
    (start goal : Cell) (q : List Cell) (h : IsGridPath m tm start goal q) :
    ReachF (build_from_rvce_grid m tm).adj_list tm start goal (q.length - 1) := by
  obtain ⟨hh, hl, hmem, hch⟩ := h
  cases q with
  | nil => exact absurd hh (by simp)
  | cons a t =>
    rw [List.head?_cons] at hh
    injection hh with hh
    subst hh
    have := gridChain_reach m tm a t a 0 goal ReachF.refl
      (hmem a (List.mem_cons_self _ _))
      (fun c hc => hmem c (List.mem_cons_of_mem _ hc)) hch hl
    simpa using this

/-- **C3.** For every navigation graph built from the current grid and tile
layer, and every start/goal pair for which some grid path (orthogonal steps
between mutually walkable cells) reaches the goal, a successful
`find_path_bfs` run returns a grid path from start to goal whose cell count
is minimal among all such grid paths; the graph's edge weights are never
consulted by the search. -/
theorem bfs_shortest_grid_path (m : RVCEGameMap) (tm : Option TileRows)
    (start goal : Cell) (q0 : List Cell) (hq0 : IsGridPath m tm start goal q0)
    (fuel : Nat) (p : List Cell) (n : Nat)
    (hrun : find_path_bfs (build_from_rvce_grid m tm).adj_list tm start goal
      fuel = some (p, n)) :
    IsGridPath m tm start goal p ∧
      ∀ q, IsGridPath m tm start goal q → p.length ≤ q.length := by
  have hspec := bfsLoop_spec (build_from_rvce_grid m tm).adj_list tm start goal
    fuel _ p n (bfs_init (build_from_rvce_grid m tm).adj_list tm start goal) hrun
  have hstart_w : WalkOK m tm start := by
    obtain ⟨hh0, -, hmem0, -⟩ := hq0
    cases q0 with
    | nil => exact absurd hh0 (by simp)
    | cons a t =>
      rw [List.head?_cons] at hh0
      injection hh0 with hh0
      subst hh0
      exact hmem0 a (List.mem_cons_self _ _)
  rcases hspec with ⟨hh, hl, hch, hmin, -⟩ | ⟨-, hnr, -⟩
  · constructor
    · refine ⟨hh, hl, ?_, ?_⟩
      · intro c hc
        cases p with
        | nil => exact absurd hh (by simp)
        | cons a t =>
          rw [List.head?_cons] at hh
          injection hh with hh
          rcases List.mem_cons.mp hc with rfl | hct
          · exact hh ▸ hstart_w
          · obtain ⟨x, hx⟩ := chain'_tail_rel a t hch c hct
            exact (build_adj_sound m tm hx.1).2.1
      · exact List.Chain'.imp (fun a b hab => (build_adj_sound m tm hab.1).2.2) hch
    · intro q hq
      have hq1 : 1 ≤ q.length := by
        cases q with
        | nil => exact absurd hq.1 (by simp)
        | cons a t => simp
      have := hmin _ (gridPath_reach m tm start goal q hq)
      omega
  · exact absurd ⟨_, gridPath_reach m tm start goal q0 hq0⟩ hnr

/-- A set closed under unskipped adjacency steps contains every filtered walk
from a member start. -/
theorem reach_in_closed {adj : Cell → List Cell} {tm : Option TileRows}
    {start : Cell} (S : Finset Cell) (hstart : start ∈ S)
    (hcl : ∀ c ∈ S, ∀ v ∈ adj c, constructionSkip tm v = false → v ∈ S) :
    ∀ {c k}, ReachF adj tm start c k → c ∈ S := by
  intro c k h
  induction h with
  | refl => exact hstart
  | step hw he hs ih => exact hcl _ ih _ he hs

set_option maxRecDepth 40000 in
theorem bfs_shortest_grid_path_witness :
    IsGridPath mapWater (some tilesWater) (0, 0) (2, 0)
      [(0, 0), (1, 0), (2, 0)] ∧
    find_path_bfs graphWater.adj_list (some tilesWater) (0, 0) (2, 0) 20 =
      some ([(0, 0), (1, 0), (2, 0)], 5) ∧
    (IsGridPath mapWater (some tilesWater) (0, 0) (2, 0)
        [(0, 0), (1, 0), (2, 0)] ∧
      ∀ q, IsGridPath mapWater (some tilesWater) (0, 0) (2, 0) q →
        ([(0, 0), (1, 0), (2, 0)] : List Cell).length ≤ q.length) :=
  ⟨by decide, by rfl,
    bfs_shortest_grid_path mapWater (some tilesWater) (0, 0) (2, 0)
      [(0, 0), (1, 0), (2, 0)] (by decide) 20 [(0, 0), (1, 0), (2, 0)] 5
      (by rfl)⟩

/-- **C9.** Any path returned by `find_path_bfs` — over any adjacency, in
particular a stale graph still containing edges into construction cells —
contains no cell other than the start cell that the construction filter
accepts as a `CONSTRUCTION` tile of the current tile map; `find_path_astar`,
which consults no tile map, does not share the guarantee: on the stale
`graphWater` it returns a path through `(1,0)`, a construction cell of
`tilesStale`. -/
theorem bfs_filters_construction :
    (∀ (adj : Cell → List Cell) (tm : Option TileRows) (start goal : Cell)
        (fuel : Nat) (p : List Cell) (n : Nat),
      find_path_bfs adj tm start goal fuel = some (p, n) →
      ∀ c ∈ p, c ≠ start → constructionSkip tm c = false) ∧
    (find_path_astar graphWater.adj_list (0, 0) (2, 0) 20 =
        some ([(0, 0), (1, 0), (2, 0)], 3) ∧
      constructionSkip (some tilesStale) (1, 0) = true ∧
      ((1, 0) : Cell) ≠ (0, 0)) := by
  constructor
  · intro adj tm start goal fuel p n hrun c hc hcs
    have hspec := bfsLoop_spec adj tm start goal fuel _ p n
      (bfs_init adj tm start goal) hrun
    rcases hspec with ⟨hh, -, hch, -⟩ | ⟨hp, -⟩
    · cases p with
      | nil => exact absurd hc (List.not_mem_nil _)
      | cons a t =>
        rw [List.head?_cons] at hh
        injection hh with hh
        subst hh
        rcases List.mem_cons.mp hc with rfl | hct
        · exact absurd rfl hcs
        · obtain ⟨x, hx⟩ := chain'_tail_rel a t hch c hct
          exact hx.2
    · rw [hp] at hc
      exact absurd hc (List.not_mem_nil _)
  · exact ⟨by rfl, by decide, by decide⟩

/-! ### A* machinery: heap order, loop equations, invariant -/

theorem entLt_eq_true_iff {a b : HeapEntry} : entLt a b = true ↔
    (a.1 < b.1 ∨ (a.1 = b.1 ∧
      (a.2.1 < b.2.1 ∨ (a.2.1 = b.2.1 ∧ a.2.2 < b.2.2)))) := by
  simp [entLt]

theorem entLt_eq_false_iff {a b : HeapEntry} : entLt a b = false ↔
    ¬ (a.1 < b.1 ∨ (a.1 = b.1 ∧
      (a.2.1 < b.2.1 ∨ (a.2.1 = b.2.1 ∧ a.2.2 < b.2.2)))) := by
  simp [entLt]

/-- The running minimum computed by `popMin`'s fold: it is the seed or a list
member, and no candidate is strictly below it. -/
theorem heapFold_min :
    ∀ (es : List HeapEntry) (a : HeapEntry),
      (List.foldl (fun x b => if entLt b x then b else x) a es = a ∨
        List.foldl (fun x b => if entLt b x then b else x) a es ∈ es) ∧
      entLt a (List.foldl (fun x b => if entLt b x then b else x) a es) = false ∧
      (∀ b ∈ es,
        entLt b (List.foldl (fun x b => if entLt b x then b else x) a es)
          = false) := by
  intro es
  induction es with
  | nil =>
    intro a
    refine ⟨Or.inl rfl, ?_, by simp⟩
    rw [List.foldl_nil, entLt_eq_false_iff]
    omega
  | cons b es ih =>
    intro a
    rw [List.foldl_cons]
    by_cases hba : entLt b a = true
    · rw [if_pos hba]
      obtain ⟨hm, hra, hall⟩ := ih b
      rw [entLt_eq_true_iff] at hba
      rw [entLt_eq_false_iff] at hra
      refine ⟨?_, ?_, ?_⟩
      · rcases hm with he | he
        · exact Or.inr (by rw [he]; exact List.mem_cons_self _ _)
        · exact Or.inr (List.mem_cons_of_mem _ he)
      · rw [entLt_eq_false_iff]
        omega
      · intro c hc
        rcases List.mem_cons.mp hc with rfl | hc
        · rw [entLt_eq_false_iff]
          exact hra
        · exact hall c hc
    · rw [if_neg hba]
      obtain ⟨hm, hra, hall⟩ := ih a
      refine ⟨?_, hra, ?_⟩
      · rcases hm with he | he
        · exact Or.inl he
        · exact Or.inr (List.mem_cons_of_mem _ he)
      · intro c hc
        rcases List.mem_cons.mp hc with rfl | hc
        · have hba' : entLt c a = false := by
            revert hba
            cases entLt c a <;> simp
          rw [entLt_eq_false_iff] at hba' hra ⊢
          omega
        · exact hall c hc

theorem popMin_eq_none {l : List HeapEntry} (h : popMin l = none) : l = [] := by
  cases l with
  | nil => rfl
  | cons e es => exact absurd h (by simp [popMin])

/-- What `heapq.heappop` guarantees: the returned entry is a member, the rest
is the list with that occurrence erased, and its priority is minimal. -/
theorem popMin_spec {l : List HeapEntry} {m : HeapEntry} {rest : List HeapEntry}
    (h : popMin l = some (m, rest)) :
    m ∈ l ∧ rest = l.erase m ∧ ∀ e ∈ l, m.1 ≤ e.1 := by
  cases l with
  | nil => exact absurd h (by simp [popMin])
  | cons e es =>
    simp only [popMin] at h
    injection h with h
    injection h with h1 h2
    obtain ⟨hmem, hle, hall⟩ := heapFold_min es e
    rw [h1] at hmem hle hall
    refine ⟨?_, h2.symm ▸ (by rw [← h1]), ?_⟩
    · rcases hmem with he | he
      · rw [he]; exact List.mem_cons_self _ _
      · exact List.mem_cons_of_mem _ he
    · intro x hx
      rcases List.mem_cons.mp hx with rfl | hx
      · rw [entLt_eq_false_iff] at hle
        omega
      · have := hall x hx
        rw [entLt_eq_false_iff] at this
        omega

theorem astarLoop_succ {adj : Cell → List Cell} {start goal : Cell} {f : Nat}
    {s : ASt} :
    astarLoop adj start goal (f + 1) s =
      match popMin s.heap with
      | none => some ([], s.explored)
      | some ((_, current), rest) =>
        if current = goal then
          (backtrack s.came_from (f + 1) current []).map
            (fun acc => (start :: acc, s.explored + 1))
        else
          astarLoop adj start goal f
            ((adj current).foldl (astarVisit goal current)
              { s with heap := rest, explored := s.explored + 1 }) := rfl

theorem astarLoop_pop_none {adj : Cell → List Cell} {start goal : Cell}
    {f : Nat} {s : ASt} (h : popMin s.heap = none) :
    astarLoop adj start goal (f + 1) s = some ([], s.explored) := by
  rw [astarLoop_succ, h]

theorem astarLoop_pop_some {adj : Cell → List Cell} {start goal : Cell}
    {f : Nat} {s : ASt} {fe : Nat} {current : Cell} {rest : List HeapEntry}
    (h : popMin s.heap = some ((fe, current), rest)) :
    astarLoop adj start goal (f + 1) s =
      if current = goal then
        (backtrack s.came_from (f + 1) current []).map
          (fun acc => (start :: acc, s.explored + 1))
      else
        astarLoop adj start goal f
          ((adj current).foldl (astarVisit goal current)
            { s with heap := rest, explored := s.explored + 1 }) := by
  rw [astarLoop_succ, h]

/-- The `find_path_astar` loop invariant. `g`-scores record unit-cost walk
lengths; every assigned cell either still has a fresh heap entry keyed by its
current `f`-score or has had all its neighbours relaxed; the initial `(0,
start)` entry is the one key anomaly the source creates. -/
structure AInv (adj : Cell → List Cell) (start goal : Cell) (s : ASt) :
    Prop where
  g_start : s.g start = some 0
  g_sound : ∀ c gc, s.g c = some gc → ReachF adj none start c gc
  cf_start : s.came_from start = none
  cf_g : ∀ c p, s.came_from c = some p → c ∈ adj p ∧
    ∃ gc gp, s.g c = some gc ∧ s.g p = some gp ∧ gp < gc
  cf_dom : ∀ c gc, s.g c = some gc → c ≠ start →
    ∃ p, s.came_from c = some p
  heap_g : ∀ fe c, (fe, c) ∈ s.heap →
    (∃ gc, s.g c = some gc ∧ gc + heuristic c goal ≤ fe) ∨
    (fe = 0 ∧ c = start)
  so_inv : ∀ c gc, s.g c = some gc →
    (∃ fe, (fe, c) ∈ s.heap ∧ fe ≤ gc + heuristic c goal) ∨
    (∀ v ∈ adj c, ∃ gv, s.g v = some gv ∧ gv ≤ gc + 1)
  goal_open : ∀ gg, s.g goal = some gg →
    ∃ fe, (fe, goal) ∈ s.heap ∧ fe ≤ gg + heuristic goal goal

/-- The invariant holding during the relaxation loop of one A* iteration,
after the current cell (of `g`-score `gcur`) has been popped. -/
structure AMid (adj : Cell → List Cell) (start goal current : Cell)
    (gcur : Nat) (s : ASt) : Prop where
  g_start : s.g start = some 0
  g_sound : ∀ c gc, s.g c = some gc → ReachF adj none start c gc
  cf_start : s.came_from start = none
  cf_g : ∀ c p, s.came_from c = some p → c ∈ adj p ∧
    ∃ gc gp, s.g c = some gc ∧ s.g p = some gp ∧ gp < gc
  cf_dom : ∀ c gc, s.g c = some gc → c ≠ start →
    ∃ p, s.came_from c = some p
  heap_g : ∀ fe c, (fe, c) ∈ s.heap →
    (∃ gc, s.g c = some gc ∧ gc + heuristic c goal ≤ fe) ∨
    (fe = 0 ∧ c = start)
  so_mid : ∀ c gc, s.g c = some gc → c ≠ current →
    (∃ fe, (fe, c) ∈ s.heap ∧ fe ≤ gc + heuristic c goal) ∨
    (∀ v ∈ adj c, ∃ gv, s.g v = some gv ∧ gv ≤ gc + 1)
  cur_g : s.g current = some gcur
  goal_open : ∀ gg, s.g goal = some gg →
    ∃ fe, (fe, goal) ∈ s.heap ∧ fe ≤ gg + heuristic goal goal

theorem astar_init (adj : Cell → List Cell) (start goal : Cell) :
    AInv adj start goal
      { heap := [(0, start)]
        came_from := fun _ => none
        g := fun c => if c = start then some 0 else none
        f := fun c => if c = start then some (heuristic start goal) else none
        explored := 0 } := by
  have hg : ∀ c gc,
      (if c = start then some 0 else (none : Option Nat)) = some gc →
      c = start ∧ gc = 0 := by
    intro c gc hc
    by_cases hcs : c = start
    · rw [if_pos hcs] at hc
      injection hc with hc
      exact ⟨hcs, hc.symm⟩
    · rw [if_neg hcs] at hc
      exact Option.noConfusion hc
  refine ⟨by simp, ?_, rfl, ?_, ?_, ?_, ?_, ?_⟩
  · intro c gc hc
    obtain ⟨rfl, rfl⟩ := hg c gc hc
    exact ReachF.refl
  · intro c p hc
    exact Option.noConfusion hc
  · intro c gc hc hne
    exact absurd (hg c gc hc).1 hne
  · intro fe c hc
    rcases List.mem_singleton.mp hc with he
    exact Or.inr ⟨(congrArg Prod.fst he), (congrArg Prod.snd he)⟩
  · intro c gc hc
    obtain ⟨rfl, rfl⟩ := hg c gc hc
    exact Or.inl ⟨0, List.mem_singleton.mpr rfl, Nat.zero_le _⟩
  · intro gg hgg
    obtain ⟨he, rfl⟩ := hg goal gg hgg
    exact ⟨0, by rw [he]; exact List.mem_singleton.mpr rfl, Nat.zero_le _⟩

/-- Popping a non-goal entry turns the loop invariant into the mid-iteration
invariant at the popped cell's `g`-score. -/
theorem astar_dequeue {adj : Cell → List Cell} {start goal : Cell} {s : ASt}
    (inv : AInv adj start goal s) {fe : Nat} {current : Cell}
    {rest : List HeapEntry}
    (hpop : popMin s.heap = some ((fe, current), rest))
    (hng : current ≠ goal) :
    ∃ gcur, AMid adj start goal current gcur
      { s with heap := rest, explored := s.explored + 1 } := by
  obtain ⟨hmem, hrest, -⟩ := popMin_spec hpop
  have hrsub : ∀ e : HeapEntry, e ∈ rest → e ∈ s.heap := by
    intro e he
    rw [hrest] at he
    exact List.mem_of_mem_erase he
  have hkeep : ∀ (fe' : Nat) (c : Cell), c ≠ current →
      (fe', c) ∈ s.heap → (fe', c) ∈ rest := by
    intro fe' c hne hm
    rw [hrest]
    refine List.mem_erase_of_ne ?_ |>.mpr hm
    intro he
    exact hne (congrArg (fun q : HeapEntry => q.2) he)
  have hcur : ∃ gcur, s.g current = some gcur := by
    rcases inv.heap_g fe current hmem with ⟨gc, hgc, -⟩ | ⟨-, rfl⟩
    · exact ⟨gc, hgc⟩
    · exact ⟨0, inv.g_start⟩
  obtain ⟨gcur, hgcur⟩ := hcur
  refine ⟨gcur, inv.g_start, inv.g_sound, inv.cf_start, inv.cf_g, inv.cf_dom,
    ?_, ?_, hgcur, ?_⟩
  · intro fe' c hc
    exact inv.heap_g fe' c (hrsub _ hc)
  · intro c gc hgc hne
    rcases inv.so_inv c gc hgc with ⟨fe', hm', hb'⟩ | hrel
    · exact Or.inl ⟨fe', hkeep fe' c hne hm', hb'⟩
    · exact Or.inr hrel
  · intro gg hgg
    obtain ⟨fe', hm', hb'⟩ := inv.goal_open gg hgg
    exact ⟨fe', hkeep fe' goal (Ne.symm hng) hm', hb'⟩

theorem astarVisit_none {goal current : Cell} {s : ASt} {n : Cell} {gc : Nat}
    (hc : s.g current = some gc) (hn : s.g n = none) :
    astarVisit goal current s n =
      { s with
        came_from := fun c => if c = n then some current else s.came_from c
        g := fun c => if c = n then some (gc + 1) else s.g c
        f := fun c => if c = n then some (gc + 1 + heuristic n goal) else s.f c
        heap := s.heap ++ [(gc + 1 + heuristic n goal, n)] } := by
  unfold astarVisit
  rw [hc, hn]
  rfl

theorem astarVisit_lt {goal current : Cell} {s : ASt} {n : Cell} {gc gn : Nat}
    (hc : s.g current = some gc) (hn : s.g n = some gn) (hlt : gc + 1 < gn) :
    astarVisit goal current s n =
      { s with
        came_from := fun c => if c = n then some current else s.came_from c
        g := fun c => if c = n then some (gc + 1) else s.g c
        f := fun c => if c = n then some (gc + 1 + heuristic n goal) else s.f c
        heap := s.heap ++ [(gc + 1 + heuristic n goal, n)] } := by
  unfold astarVisit
  rw [hc, hn]
  split
  · rename_i heq
    exact Option.noConfusion heq
  · rename_i gc' heq
    injection heq with heq
    subst heq
    split
    · rename_i heq2
      exact Option.noConfusion heq2
    · rename_i gn' heq2
      injection heq2 with heq2
      subst heq2
      dsimp only
      rw [if_pos (decide_eq_true hlt)]

theorem astarVisit_ge {goal current : Cell} {s : ASt} {n : Cell} {gc gn : Nat}
    (hc : s.g current = some gc) (hn : s.g n = some gn)
    (hge : ¬ gc + 1 < gn) :
    astarVisit goal current s n = s := by
  unfold astarVisit
  rw [hc, hn]
  split
  · rename_i heq
    exact Option.noConfusion heq
  · rename_i gc' heq
    injection heq with heq
    subst heq
    split
    · rename_i heq2
      exact Option.noConfusion heq2
    · rename_i gn' heq2
      injection heq2 with heq2
      subst heq2
      dsimp only
      rw [if_neg (fun h => hge (of_decide_eq_true h))]

/-- Preservation of the mid-iteration invariant under an improving relaxation
of the neighbour `n`. -/
theorem astar_update_mid {adj : Cell → List Cell} {start goal current : Cell}
    {gcur : Nat} {s : ASt} (inv : AMid adj start goal current gcur s)
    (n : Cell) (hn : n ∈ adj current) (hnst : n ≠ start) (hncur : n ≠ current)
    (himp : ∀ gn, s.g n = some gn → gcur + 1 < gn) :
    AMid adj start goal current gcur
      { s with
        came_from := fun c => if c = n then some current else s.came_from c
        g := fun c => if c = n then some (gcur + 1) else s.g c
        f := fun c => if c = n then some (gcur + 1 + heuristic n goal)
          else s.f c
        heap := s.heap ++ [(gcur + 1 + heuristic n goal, n)] } := by
  have hmono : ∀ c gc, s.g c = some gc →
      ∃ gc', (if c = n then some (gcur + 1) else s.g c) = some gc' ∧
        gc' ≤ gc := by
    intro c gc hc
    by_cases hcn : c = n
    · subst hcn
      exact ⟨gcur + 1, if_pos rfl, Nat.le_of_lt (himp gc hc)⟩
    · exact ⟨gc, by rw [if_neg hcn]; exact hc, le_refl gc⟩
  refine ⟨?_, ?_, ?_, ?_, ?_, ?_, ?_, ?_, ?_⟩
  all_goals dsimp only
  · -- g_start
    rw [if_neg (Ne.symm hnst)]
    exact inv.g_start
  · -- g_sound
    intro c gc hc
    by_cases hcn : c = n
    · subst hcn
      rw [if_pos rfl] at hc
      injection hc with hc
      rw [← hc]
      exact ReachF.step (inv.g_sound current gcur inv.cur_g) hn rfl
    · rw [if_neg hcn] at hc
      exact inv.g_sound c gc hc
  · -- cf_start
    rw [if_neg (Ne.symm hnst)]
    exact inv.cf_start
  · -- cf_g
    intro c p hp
    by_cases hcn : c = n
    · subst hcn
      rw [if_pos rfl] at hp
      injection hp with hp
      subst hp
      refine ⟨hn, gcur + 1, gcur, if_pos rfl, ?_, by omega⟩
      rw [if_neg (Ne.symm hncur)]
      exact inv.cur_g
    · rw [if_neg hcn] at hp
      obtain ⟨hadj, gc, gp, hgc, hgp, hlt⟩ := inv.cf_g c p hp
      refine ⟨hadj, ?_⟩
      by_cases hpn : p = n
      · subst hpn
        have hlt2 := himp gp hgp
        refine ⟨gc, gcur + 1, ?_, if_pos rfl, by omega⟩
        rw [if_neg hcn]
        exact hgc
      · refine ⟨gc, gp, ?_, ?_, hlt⟩
        · rw [if_neg hcn]
          exact hgc
        · rw [if_neg hpn]
          exact hgp
  · -- cf_dom
    intro c gc hgc hne
    by_cases hcn : c = n
    · subst hcn
      exact ⟨current, if_pos rfl⟩
    · rw [if_neg hcn] at hgc
      obtain ⟨p, hp⟩ := inv.cf_dom c gc hgc hne
      refine ⟨p, ?_⟩
      rw [if_neg hcn]
      exact hp
  · -- heap_g
    intro fe c hc
    rcases List.mem_append.mp hc with hc | hc
    · rcases inv.heap_g fe c hc with ⟨gc, hgc, hb⟩ | hanom
      · by_cases hcn : c = n
        · subst hcn
          have := himp gc hgc
          exact Or.inl ⟨gcur + 1, if_pos rfl, by omega⟩
        · refine Or.inl ⟨gc, ?_, hb⟩
          rw [if_neg hcn]
          exact hgc
      · exact Or.inr hanom
    · rcases List.mem_singleton.mp hc with he
      have e1 : fe = gcur + 1 + heuristic n goal := congrArg Prod.fst he
      have e2 : c = n := congrArg Prod.snd he
      subst e2
      exact Or.inl ⟨gcur + 1, if_pos rfl, by omega⟩
  · -- so_mid
    intro c gc hgc hne
    by_cases hcn : c = n
    · subst hcn
      rw [if_pos rfl] at hgc
      injection hgc with hgc
      refine Or.inl ⟨gcur + 1 + heuristic c goal, ?_, by omega⟩
      exact List.mem_append_right _ (List.mem_singleton.mpr rfl)
    · rw [if_neg hcn] at hgc
      rcases inv.so_mid c gc hgc hne with ⟨fe, hm, hb⟩ | hrel
      · exact Or.inl ⟨fe, List.mem_append_left _ hm, hb⟩
      · refine Or.inr ?_
        intro v hv
        obtain ⟨gv, hgv, hle⟩ := hrel v hv
        obtain ⟨gv', hgv', hle'⟩ := hmono v gv hgv
        exact ⟨gv', hgv', by omega⟩
  · -- cur_g
    rw [if_neg (Ne.symm hncur)]
    exact inv.cur_g
  · -- goal_open
    intro gg hgg
    by_cases hgoal : goal = n
    · subst hgoal
      rw [if_pos rfl] at hgg
      injection hgg with hgg
      refine ⟨gcur + 1 + heuristic goal goal, ?_, by omega⟩
      exact List.mem_append_right _ (List.mem_singleton.mpr rfl)
    · rw [if_neg hgoal] at hgg
      obtain ⟨fe, hm, hb⟩ := inv.goal_open gg hgg
      exact ⟨fe, List.mem_append_left _ hm, hb⟩

/-- One A* relaxation step preserves the mid-iteration invariant, leaves the
neighbour's `g`-score at most `gcur + 1`, and never increases any `g`. -/
theorem astarVisit_mid {adj : Cell → List Cell} {start goal current : Cell}
    {gcur : Nat} {s : ASt} (inv : AMid adj start goal current gcur s)
    (n : Cell) (hn : n ∈ adj current) :
    AMid adj start goal current gcur (astarVisit goal current s n) ∧
    (∃ gn, (astarVisit goal current s n).g n = some gn ∧ gn ≤ gcur + 1) ∧
    (∀ c gc, s.g c = some gc →
      ∃ gc', (astarVisit goal current s n).g c = some gc' ∧ gc' ≤ gc) := by
  rcases hgn : s.g n with _ | gn
  · have hnst : n ≠ start := by
      intro he
      rw [he, inv.g_start] at hgn
      exact Option.noConfusion hgn
    have hncur : n ≠ current := by
      intro he
      rw [he, inv.cur_g] at hgn
      exact Option.noConfusion hgn
    have himp : ∀ gn', s.g n = some gn' → gcur + 1 < gn' := by
      intro gn' h
      rw [hgn] at h
      exact Option.noConfusion h
    rw [astarVisit_none inv.cur_g hgn]
    refine ⟨astar_update_mid inv n hn hnst hncur himp,
      ⟨gcur + 1, if_pos rfl, le_refl _⟩, ?_⟩
    intro c gc hc
    by_cases hcn : c = n
    · subst hcn
      rw [hgn] at hc
      exact Option.noConfusion hc
    · refine ⟨gc, ?_, le_refl _⟩
      show (if c = n then some (gcur + 1) else s.g c) = some gc
      rw [if_neg hcn]
      exact hc
  · by_cases hlt : gcur + 1 < gn
    · have hnst : n ≠ start := by
        intro he
        rw [he, inv.g_start] at hgn
        injection hgn with e
        omega
      have hncur : n ≠ current := by
        intro he
        rw [he, inv.cur_g] at hgn
        injection hgn with e
        omega
      have himp : ∀ gn', s.g n = some gn' → gcur + 1 < gn' := by
        intro gn' h
        rw [hgn] at h
        injection h with e
        omega
      rw [astarVisit_lt inv.cur_g hgn hlt]
      refine ⟨astar_update_mid inv n hn hnst hncur himp,
        ⟨gcur + 1, if_pos rfl, le_refl _⟩, ?_⟩
      intro c gc hc
      by_cases hcn : c = n
      · subst hcn
        rw [hgn] at hc
        injection hc with e
        refine ⟨gcur + 1, if_pos rfl, ?_⟩
        omega
      · refine ⟨gc, ?_, le_refl _⟩
        show (if c = n then some (gcur + 1) else s.g c) = some gc
        rw [if_neg hcn]
        exact hc
    · rw [astarVisit_ge inv.cur_g hgn hlt]
      exact ⟨inv, ⟨gn, hgn, by omega⟩, fun c gc hc => ⟨gc, hc, le_refl _⟩⟩

/-- Folding the relaxation over a neighbour list. -/
theorem astar_fold {adj : Cell → List Cell} {start goal current : Cell}
    {gcur : Nat} (ns : List Cell) (hsub : ∀ v ∈ ns, v ∈ adj current) :
    ∀ s, AMid adj start goal current gcur s →
      AMid adj start goal current gcur (ns.foldl (astarVisit goal current) s) ∧
      (∀ v ∈ ns, ∃ gv, (ns.foldl (astarVisit goal current) s).g v = some gv ∧
        gv ≤ gcur + 1) ∧
      (∀ c gc, s.g c = some gc →
        ∃ gc', (ns.foldl (astarVisit goal current) s).g c = some gc' ∧
          gc' ≤ gc) := by
  induction ns with
  | nil =>
    intro s inv
    exact ⟨inv, by simp, fun c gc hc => ⟨gc, hc, le_refl _⟩⟩
  | cons n ns ih =>
    intro s inv
    obtain ⟨inv1, hrel1, hmono1⟩ :=
      astarVisit_mid inv n (hsub n (List.mem_cons_self _ _))
    obtain ⟨invF, hrelF, hmonoF⟩ :=
      ih (fun v hv => hsub v (List.mem_cons_of_mem _ hv)) _ inv1
    rw [List.foldl_cons]
    refine ⟨invF, ?_, ?_⟩
    · intro v hv
      rcases List.mem_cons.mp hv with rfl | hv
      · obtain ⟨gv, hgv, hle⟩ := hrel1
        obtain ⟨gv', hgv', hle'⟩ := hmonoF v gv hgv
        exact ⟨gv', hgv', by omega⟩
      · exact hrelF v hv
    · intro c gc hc
      obtain ⟨g1, hg1, hle1⟩ := hmono1 c gc hc
      obtain ⟨g2, hg2, hle2⟩ := hmonoF c g1 hg1
      exact ⟨g2, hg2, by omega⟩

/-- After all neighbours of the popped cell are relaxed, the loop invariant
holds again. -/
theorem astar_exit {adj : Cell → List Cell} {start goal current : Cell}
    {gcur : Nat} {s : ASt} (inv : AMid adj start goal current gcur s)
    (hrelax : ∀ v ∈ adj current, ∃ gv, s.g v = some gv ∧ gv ≤ gcur + 1) :
    AInv adj start goal s := by
  refine ⟨inv.g_start, inv.g_sound, inv.cf_start, inv.cf_g, inv.cf_dom,
    inv.heap_g, ?_, inv.goal_open⟩
  intro c gc hgc
  by_cases hcc : c = current
  · subst hcc
    rw [inv.cur_g] at hgc
    injection hgc with e
    refine Or.inr ?_
    intro v hv
    obtain ⟨gv, hgv, hle⟩ := hrelax v hv
    exact ⟨gv, hgv, by omega⟩
  · exact inv.so_mid c gc hgc hcc

theorem heuristic_self (a : Cell) : heuristic a a = 0 := by
  simp [heuristic]

/-- The Manhattan heuristic is consistent on any graph built from a grid:
every stored edge is an orthogonal step. -/
theorem build_hcons (m : RVCEGameMap) (tm : Option TileRows) (goal : Cell) :
    ∀ u v, v ∈ (build_from_rvce_grid m tm).adj_list u →
      heuristic u goal ≤ heuristic v goal + 1 := by
  intro u v hv
  have horth := (build_adj_sound m tm hv).2.2
  unfold orthAdj at horth
  unfold heuristic
  omega

/-- The cover property: under the invariant and a consistent heuristic,
every walk either is already beaten by the target's `g`-score or passes
through a heap entry whose key is at most the walk length plus the target's
heuristic. -/
theorem astar_cover {adj : Cell → List Cell} {start goal : Cell} {s : ASt}
    (inv : AInv adj start goal s)
    (hcons : ∀ u v, v ∈ adj u → heuristic u goal ≤ heuristic v goal + 1) :
    ∀ {z j}, ReachF adj none start z j →
      (∃ gz, s.g z = some gz ∧ gz ≤ j) ∨
      (∃ fe c, (fe, c) ∈ s.heap ∧ fe ≤ j + heuristic z goal) := by
  intro z j h
  induction h with
  | refl => exact Or.inl ⟨0, inv.g_start, le_refl 0⟩
  | step hw he hs ih =>
    rename_i c v n
    rcases ih with ⟨gc, hgc, hle⟩ | ⟨fe, c', hm, hb⟩
    · rcases inv.so_inv c gc hgc with ⟨fe, hm, hb⟩ | hrel
      · refine Or.inr ⟨fe, c, hm, ?_⟩
        have := hcons c v he
        omega
      · obtain ⟨gv, hgv, hvle⟩ := hrel v he
        exact Or.inl ⟨gv, hgv, by omega⟩
    · refine Or.inr ⟨fe, c', hm, ?_⟩
      have := hcons c v he
      omega

/-- With an empty heap every reachable cell has a `g`-score. -/
theorem astar_empty_g {adj : Cell → List Cell} {start goal : Cell} {s : ASt}
    (inv : AInv adj start goal s) (hemp : s.heap = []) :
    ∀ {z j}, ReachF adj none start z j → ∃ gz, s.g z = some gz := by
  intro z j h
  induction h with
  | refl => exact ⟨0, inv.g_start⟩
  | step hw he hs ih =>
    rename_i c v n
    obtain ⟨gc, hgc⟩ := ih
    rcases inv.so_inv c gc hgc with ⟨fe, hm, -⟩ | hrel
    · rw [hemp] at hm
      exact absurd hm (List.not_mem_nil _)
    · obtain ⟨gv, hgv, -⟩ := hrel v he
      exact ⟨gv, hgv⟩

/-- Every cell with a `g`-score has a `came_from` chain to the start of at
most that length. -/
theorem astar_pdepth {adj : Cell → List Cell} {start goal : Cell} {s : ASt}
    (inv : AInv adj start goal s) :
    ∀ (gc : Nat) (c : Cell), s.g c = some gc →
      ∃ k, k ≤ gc ∧ PDepth s.came_from start c k := by
  intro gc
  induction gc using Nat.strong_induction_on with
  | _ gc ih =>
    intro c hc
    by_cases hcs : c = start
    · subst hcs
      exact ⟨0, Nat.zero_le _, PDepth.zero⟩
    · obtain ⟨p, hp⟩ := inv.cf_dom c gc hc hcs
      obtain ⟨hadj, gc', gp, hgc', hgp, hlt⟩ := inv.cf_g c p hp
      have he : gc = gc' := by
        rw [hc] at hgc'
        injection hgc'
      obtain ⟨k, hk, hpd⟩ := ih gp (by omega) p hgp
      exact ⟨k + 1, by omega, PDepth.succ hp hpd⟩

/-- The complete specification of the A* loop under its invariant: a
successful run either reports an adjacency path to the goal that is hop-count
minimal whenever the heuristic is consistent, or reports the empty path with
the goal unreachable. -/
theorem astarLoop_spec (adj : Cell → List Cell) (start goal : Cell) :
    ∀ (fuel : Nat) (s : ASt) (p : List Cell) (n : Nat),
      AInv adj start goal s →
      astarLoop adj start goal fuel s = some (p, n) →
      (p.head? = some start ∧ p.getLast? = some goal ∧
        p.Chain' (fun a b => b ∈ adj a) ∧
        (∃ dg, p.length = dg + 1 ∧ ReachF adj none start goal dg) ∧
        ((∀ u v, v ∈ adj u → heuristic u goal ≤ heuristic v goal + 1) →
          ∀ j, ReachF adj none start goal j → p.length ≤ j + 1)) ∨
      (p = [] ∧ ¬ ∃ k, ReachF adj none start goal k) := by
  intro fuel
  induction fuel with
  | zero =>
    intro s p n inv hrun
    exact absurd hrun (by simp [astarLoop])
  | succ f ih =>
    intro s p n inv hrun
    rcases hpop : popMin s.heap with _ | me
    · rw [astarLoop_pop_none hpop] at hrun
      injection hrun with hrun
      have hp : p = [] := (congrArg Prod.fst hrun).symm
      refine Or.inr ⟨hp, ?_⟩
      rintro ⟨k, hk⟩
      have hemp := popMin_eq_none hpop
      obtain ⟨gg, hgg⟩ := astar_empty_g inv hemp hk
      obtain ⟨fe, hm, -⟩ := inv.goal_open gg hgg
      rw [hemp] at hm
      exact List.not_mem_nil _ hm
    · obtain ⟨⟨fe, current⟩, rest⟩ := me
      rw [astarLoop_pop_some hpop] at hrun
      by_cases hcg : current = goal
      · subst hcg
        rw [if_pos rfl] at hrun
        obtain ⟨hmem, -, hkeys⟩ := popMin_spec hpop
        obtain ⟨gg, hgg, hsettle⟩ :
            ∃ gg, s.g current = some gg ∧
              ((∀ u v, v ∈ adj u →
                  heuristic u current ≤ heuristic v current + 1) →
                ∀ j, ReachF adj none start current j → gg ≤ j) := by
          rcases inv.heap_g fe current hmem with ⟨gg, hgg, hb⟩ | ⟨hfe0, hcs⟩
          · refine ⟨gg, hgg, ?_⟩
            intro hcons j hj
            have hb' : gg ≤ fe := by
              rw [heuristic_self] at hb
              omega
            rcases astar_cover inv hcons hj with ⟨gz, hgz, hle⟩ |
              ⟨fe', c', hm', hbk⟩
            · rw [hgg] at hgz
              injection hgz with e
              omega
            · have hkey := hkeys _ hm'
              rw [heuristic_self] at hbk
              omega
          · subst hcs
            refine ⟨0, inv.g_start, ?_⟩
            intro _ j _
            exact Nat.zero_le j
        obtain ⟨k, hk, hpd⟩ := astar_pdepth inv gg current hgg
        obtain ⟨l, hlrun, hllen, hllast, hlchain, -⟩ :=
          backtrack_complete inv.cf_start (fun a b => b ∈ adj a)
            (fun c w h => (inv.cf_g c w h).1) hpd
        have hedge2 : ∀ c w, s.came_from c = some w →
            c ∈ adj w ∧ constructionSkip none c = false :=
          fun c w h => ⟨(inv.cf_g c w h).1, rfl⟩
        have hreachk : ReachF adj none start current k :=
          pdepth_reach hedge2 hpd
        by_cases hfuel : k ≤ f + 1
        · rw [hlrun (f + 1) [] hfuel] at hrun
          rw [Option.map_some'] at hrun
          injection hrun with hrun
          have hp : p = start :: (l ++ []) := (congrArg Prod.fst hrun).symm
          rw [List.append_nil] at hp
          subst hp
          refine Or.inl ⟨rfl, hllast, hlchain, ⟨k, by simp [hllen], hreachk⟩,
            ?_⟩
          intro hcons j hj
          have h1 := hsettle hcons j hj
          have h2 := hsettle hcons k hreachk
          simp only [List.length_cons, hllen]
          omega
        · rw [backtrack_incomplete hpd (f + 1) [] (by omega)] at hrun
          rw [Option.map_none'] at hrun
          exact absurd hrun (by simp)
      · rw [if_neg hcg] at hrun
        obtain ⟨gcur, hmid⟩ := astar_dequeue inv hpop hcg
        obtain ⟨hmid', hrelax, -⟩ :=
          astar_fold (adj current) (fun v hv => hv) _ hmid
        exact ih _ p n (astar_exit hmid' hrelax) hrun

set_option maxRecDepth 40000 in
theorem bfs_filters_construction_witness :
    find_path_bfs graphWater.adj_list (some tilesStale) (0, 0) (2, 0) 20 =
      some ([(0, 0), (0, 1), (1, 1), (2, 1), (2, 0)], 5) ∧
    constructionSkip (some tilesStale) (1, 1) = false :=
  ⟨by rfl,
    bfs_filters_construction.1 graphWater.adj_list (some tilesStale) (0, 0)
      (2, 0) 20 [(0, 0), (0, 1), (1, 1), (2, 1), (2, 0)] 5 (by rfl) (1, 1)
      (by decide) (by decide)⟩

/-- Counterexample to C1's weighted-cost optimality: on `graphWater` the A*
search returns the direct path through the Water cell, of accumulated edge
weight `5`, although the detour along the bottom row is an adjacency path of
accumulated weight `4` — the relaxation uses `g_score[current] + 1`, not the
stored edge weights. -/
theorem astar_ignores_edge_weights :
    find_path_astar graphWater.adj_list (0, 0) (2, 0) 20 =
      some ([(0, 0), (1, 0), (2, 0)], 3) ∧
    pathCost graphWater [(0, 0), (1, 0), (2, 0)] = some 5 ∧
    IsAdjPath graphWater.adj_list (0, 0) (2, 0)
      [(0, 0), (0, 1), (1, 1), (2, 1), (2, 0)] ∧
    pathCost graphWater [(0, 0), (0, 1), (1, 1), (2, 1), (2, 0)] = some 4 ∧
    (4 : WithTop ℚ) < 5 := by
  refine ⟨by rfl, ?_, by decide, ?_, by decide⟩
  · have h1 : graphWater.weights ((0, 0), (1, 0)) =
        some ((1 : ℚ) : WithTop ℚ) := by rfl
    have h2 : graphWater.weights ((1, 0), (2, 0)) =
        some ((4 : ℚ) : WithTop ℚ) := by rfl
    simp only [pathCost, h1, h2]
    norm_num
  · have h1 : graphWater.weights ((0, 0), (0, 1)) =
        some ((1 : ℚ) : WithTop ℚ) := by rfl
    have h2 : graphWater.weights ((0, 1), (1, 1)) =
        some ((1 : ℚ) : WithTop ℚ) := by rfl
    have h3 : graphWater.weights ((1, 1), (2, 1)) =
        some ((1 : ℚ) : WithTop ℚ) := by rfl
    have h4 : graphWater.weights ((2, 1), (2, 0)) =
        some ((1 : ℚ) : WithTop ℚ) := by rfl
    simp only [pathCost, h1, h2, h3, h4]
    norm_num

/-- **C1.** (corrected) For every navigation graph built from a grid and tile
layer and every start/goal pair with the goal reachable in the graph, a
successful `find_path_astar` run returns an adjacency path from start to goal
whose cell count — not its accumulated edge weight — is minimal over all
adjacency paths: the relaxation uses the unit cost `g_score[current] + 1` and
never consults the graph's edge weights. -/
theorem astar_shortest_hop_path (m : RVCEGameMap) (tm : Option TileRows)
    (start goal : Cell) (q0 : List Cell)
    (hq0 : IsAdjPath (build_from_rvce_grid m tm).adj_list start goal q0)
    (fuel : Nat) (p : List Cell) (n : Nat)
    (hrun : find_path_astar (build_from_rvce_grid m tm).adj_list start goal
      fuel = some (p, n)) :
    IsAdjPath (build_from_rvce_grid m tm).adj_list start goal p ∧
      ∀ q, IsAdjPath (build_from_rvce_grid m tm).adj_list start goal q →
        p.length ≤ q.length := by
  have hspec := astarLoop_spec (build_from_rvce_grid m tm).adj_list start goal
    fuel _ p n (astar_init (build_from_rvce_grid m tm).adj_list start goal)
    hrun
  rcases hspec with ⟨hh, hl, hch, -, hmin⟩ | ⟨-, hnr⟩
  · refine ⟨⟨hh, hl, hch⟩, ?_⟩
    intro q hq
    have hq1 : 1 ≤ q.length := by
      cases q with
      | nil => exact absurd hq.1 (by simp)
      | cons a t => simp
    have := hmin (build_hcons m tm goal) _ (adjPath_reach hq)
    omega
  · exact absurd ⟨_, adjPath_reach hq0⟩ hnr

set_option maxRecDepth 40000 in
theorem astar_shortest_hop_path_witness :
    IsAdjPath (build_from_rvce_grid mapWater (some tilesWater)).adj_list
      (0, 0) (2, 0) [(0, 0), (1, 0), (2, 0)] ∧
    find_path_astar (build_from_rvce_grid mapWater (some tilesWater)).adj_list
      (0, 0) (2, 0) 20 = some ([(0, 0), (1, 0), (2, 0)], 3) ∧
    (IsAdjPath (build_from_rvce_grid mapWater (some tilesWater)).adj_list
        (0, 0) (2, 0) [(0, 0), (1, 0), (2, 0)] ∧
      ∀ q, IsAdjPath (build_from_rvce_grid mapWater (some tilesWater)).adj_list
          (0, 0) (2, 0) q →
        ([(0, 0), (1, 0), (2, 0)] : List Cell).length ≤ q.length) :=
  ⟨by decide, by rfl,
    astar_shortest_hop_path mapWater (some tilesWater) (0, 0) (2, 0)
      [(0, 0), (1, 0), (2, 0)] (by decide) 20 [(0, 0), (1, 0), (2, 0)] 3
      (by rfl)⟩

set_option maxRecDepth 40000 in
/-- Counterexample to C4's claim that both searches explore exactly the
component of the start: on the ring map both return the empty path for the
unreachable goal `(4,0)`, but BFS explores the 8 component cells while A*
counts 9 pops — its heap re-insertions make `nodes_explored` exceed the
component size. -/
theorem astar_explored_exceeds_component :
    find_path_bfs graphRing.adj_list none (0, 2) (4, 0) 60 = some ([], 8) ∧
    find_path_astar graphRing.adj_list (0, 2) (4, 0) 60 = some ([], 9) ∧
    (¬ ∃ k, ReachF graphRing.adj_list none (0, 2) (4, 0) k) ∧
    ∀ S : Finset Cell,
      (∀ c, c ∈ S ↔ ∃ k, ReachF graphRing.adj_list none (0, 2) c k) →
        S.card = 8 := by
  have hb : find_path_bfs graphRing.adj_list none (0, 2) (4, 0) 60 =
      some ([], 8) := by rfl
  have hspec := bfsLoop_spec graphRing.adj_list none (0, 2) (4, 0) 60 _ [] 8
    (bfs_init graphRing.adj_list none (0, 2) (4, 0)) hb
  rcases hspec with ⟨hh, -⟩ | ⟨-, hnr, S0, hchar0, hcard⟩
  · exact absurd hh (by simp)
  · refine ⟨hb, by rfl, hnr, ?_⟩
    intro S hchar
    have hS : S = S0 := Finset.ext fun c => (hchar c).trans (hchar0 c).symm
    rw [hS]
    exact hcard.symm

/-- **C4.** (corrected) For every graph and tile map, if the goal is
unreachable from the start then successful `find_path_bfs` and
`find_path_astar` runs both return the empty path, and the BFS
`nodes_explored` count equals the number of cells in the reachable component
of the start (under the construction filter; the whole graph component when no
filter applies). A*'s count is the number of heap pops, which can strictly
exceed the component size. -/
theorem unreachable_goal_empty_paths (adj : Cell → List Cell)
    (tm : Option TileRows) (start goal : Cell)
    (hunreach : ¬ ∃ k, ReachF adj none start goal k)
    (fb fa : Nat) (p q : List Cell) (n nq : Nat)
    (hb : find_path_bfs adj tm start goal fb = some (p, n))
    (ha : find_path_astar adj start goal fa = some (q, nq)) :
    p = [] ∧ q = [] ∧
      ∀ S : Finset Cell, (∀ c, c ∈ S ↔ ∃ k, ReachF adj tm start c k) →
        n = S.card := by
  have hbspec := bfsLoop_spec adj tm start goal fb _ p n
    (bfs_init adj tm start goal) hb
  have haspec := astarLoop_spec adj start goal fa _ q nq
    (astar_init adj start goal) ha
  rcases hbspec with ⟨-, -, -, -, dg, -, hreach⟩ | ⟨hp, -, S0, hchar0, hcard⟩
  · exact absurd ⟨dg, reachF_drop_filter hreach⟩ hunreach
  · rcases haspec with ⟨-, -, -, ⟨dg, -, hreach⟩, -⟩ | ⟨hq, -⟩
    · exact absurd ⟨dg, hreach⟩ hunreach
    · refine ⟨hp, hq, ?_⟩
      intro S hchar
      have hS : S = S0 := Finset.ext fun c => (hchar c).trans (hchar0 c).symm
      rw [hS]
      exact hcard

set_option maxRecDepth 100000 in
theorem unreachable_goal_empty_paths_witness :
    (¬ ∃ k, ReachF graphRing.adj_list none (0, 2) (4, 0) k) ∧
    ([] : List Cell) = [] ∧ ([] : List Cell) = [] ∧
    ∀ S : Finset Cell,
      (∀ c, c ∈ S ↔ ∃ k, ReachF graphRing.adj_list none (0, 2) c k) →
        8 = S.card := by
  have hunreach : ¬ ∃ k, ReachF graphRing.adj_list none (0, 2) (4, 0) k := by
    rintro ⟨k, hk⟩
    exact absurd (reach_in_closed ringCells (by decide) (by decide) hk)
      (by decide)
  have main := unreachable_goal_empty_paths graphRing.adj_list none (0, 2)
    (4, 0) hunreach 60 60 [] [] 8 9 (by rfl) (by rfl)
  exact ⟨hunreach, main.1, main.2.1, main.2.2⟩

end RVCE
